import Mathlib

set_option maxRecDepth 40000

/-!
Verification of the TE_Idx interval index (Dfam-consortium/TE_Idx, src/idx.rs).

The development shallowly embeds the index data model, the builder
(`add_contig_range`, `save_index`), the loader (`init_search`, `read_tile`)
and the range-query engine (`search`, `filter_line`) as executable Lean
functions over `Nat` and `List Nat` (byte lists), and proves the stated
properties about them.  Strings are modelled as byte lists; `u32`/`u64`
arithmetic is modelled on `Nat` with explicit reductions modulo `2 ^ 32`
where the Rust code performs wrapping 32-bit arithmetic.
-/

/-- The modulus of 32-bit unsigned arithmetic. -/
def U32M : Nat := 4294967296

/-- One interval record of the index (struct `ContigRange` in idx.rs):
source BED file index, zero-based start, half-open end, and the bgzf
virtual position of the record line. -/
structure ContigRange where
  bed_idx : Nat
  start_bp : Nat
  end_bp : Nat
  bgzf_pos : Nat
deriving Repr, DecidableEq, Inhabited

/-- A referenced block-compressed data file (struct `BGZFile` in idx.rs).
The `f64` modification time is kept as its raw 8 little-endian bytes: the
index code only ever copies and compares it. -/
structure BGZFile where
  name : List Nat
  mod_time_bytes : List Nat
  bytes : Nat
deriving Repr, DecidableEq, Inhabited

/-- A named contig and its tiles (struct `Contig`); a tile is its list of
ranges (struct `ContigTile`). -/
structure Contig where
  name : List Nat
  contig_tiles : List (List ContigRange)
deriving Repr, DecidableEq, Inhabited

/-- The in-memory index built by the builder (struct `ContigIndex`).
`contig_count`, `tile_counts`, `range_counts` and `contig_lookup` of the
Rust struct are derived data during build (the lookup maps a name to the
first position of a contig with that name, and `get_or_insert_contig`
keeps names unique), so they are recomputed from `contigs` here. -/
structure ContigIndex where
  tile_size : Nat
  bgz_files : List BGZFile
  contigs : List Contig
deriving Repr, DecidableEq, Inhabited

/-- Name lookup used by `get_or_insert_contig`: index of the first contig
with the given name. -/
def findContigIdx (cs : List Contig) (nm : List Nat) : Option Nat :=
  match cs with
  | [] => none
  | c :: rest => if c.name == nm then some 0 else (findContigIdx rest nm).map (· + 1)

/-- Update the element at position `i` of a list. -/
def updAt : Nat → (α → α) → List α → List α
  | _, _, [] => []
  | 0, f, x :: xs => f x :: xs
  | i + 1, f, x :: xs => x :: updAt i f xs

/-- Extend a tile list with fresh empty tiles so that it has at least `n`
tiles (the `saturating_sub` push loop of `add_contig_range`). -/
def extendTiles (tiles : List (List ContigRange)) (n : Nat) : List (List ContigRange) :=
  tiles ++ List.replicate (n - tiles.length) []

/-- Push a copy of range `r` onto every tile with index in
`[first, last]`; `i` is the index of the first listed tile.  This is the
`for tile_idx in first_tile_idx..(last_tile_idx + 1)` loop of
`add_contig_range`. -/
def pushTileRange (r : ContigRange) (first last : Nat) : Nat → List (List ContigRange) → List (List ContigRange)
  | _, [] => []
  | i, t :: ts =>
    (if first ≤ i ∧ i ≤ last then t ++ [r] else t) :: pushTileRange r first last (i + 1) ts

/-- Extend a contig with a new range replicated over the tiles it
overlaps (body of `add_contig_range` once the contig is resolved). -/
def addToContig (c : Contig) (first last : Nat) (r : ContigRange) : Contig :=
  { c with contig_tiles := pushTileRange r first last 0 (extendTiles c.contig_tiles (last + 1)) }

/-- `ContigIndex::add_contig_range`: compute the first and last
overlapped tile, resolve (or insert) the contig, extend its tiles and
replicate the new range across tiles `first..=last`. -/
def add_contig_range (idx : ContigIndex) (contig_name : List Nat)
    (bed_idx start_bp end_bp bgzf_pos : Nat) : ContigIndex :=
  let first_tile_idx := start_bp / idx.tile_size
  let last_tile_idx := (end_bp - 1) / idx.tile_size
  let r : ContigRange := ⟨bed_idx, start_bp, end_bp, bgzf_pos⟩
  match findContigIdx idx.contigs contig_name with
  | some cIdx =>
    { idx with contigs := updAt cIdx (fun c => addToContig c first_tile_idx last_tile_idx r) idx.contigs }
  | none =>
    { idx with contigs := idx.contigs ++ [addToContig ⟨contig_name, []⟩ first_tile_idx last_tile_idx r] }

/-- Insert a range into a start-sorted list, after all entries whose
`start_bp` is not larger.  Folding this over a list is a stable sort by
`start_bp`, the semantics of the Rust stable `sort_by_key` used by
`save_index`. -/
def insertByStart (r : ContigRange) : List ContigRange → List ContigRange
  | [] => [r]
  | x :: xs => if x.start_bp ≤ r.start_bp then x :: insertByStart r xs else r :: x :: xs

/-- Stable sort of a tile by `start_bp` (`sorted_ranges.sort_by_key(|r| r.start_bp)`
in `save_index`). -/
def sortByStart (l : List ContigRange) : List ContigRange :=
  l.foldl (fun acc r => insertByStart r acc) []

/-- Little-endian 2-byte encoding. -/
def encU16 (n : Nat) : List Nat := [n % 256, n / 256 % 256]

/-- Little-endian 4-byte encoding. -/
def encU32 (n : Nat) : List Nat :=
  [n % 256, n / 256 % 256, n / 65536 % 256, n / 16777216 % 256]

/-- Little-endian 8-byte encoding. -/
def encU64 (n : Nat) : List Nat :=
  [n % 256, n / 256 % 256, n / 65536 % 256, n / 16777216 % 256,
   n / 4294967296 % 256, n / 1099511627776 % 256,
   n / 281474976710656 % 256, n / 72057594037927936 % 256]

/-- Fixed-width, zero-padded byte field of width `k` (truncating a longer
value), as written for names and the raw modification time. -/
def padTrunc (k : Nat) (l : List Nat) : List Nat :=
  l.take k ++ List.replicate (k - l.length) 0

/-- 40-byte zero-padded name field. -/
def name40 (nm : List Nat) : List Nat := padTrunc 40 nm

/-- The 56-byte file-descriptor record of the index format. -/
def encFileDesc (f : BGZFile) : List Nat :=
  name40 f.name ++ padTrunc 8 f.mod_time_bytes ++ encU64 f.bytes

/-- The 28-byte on-disk encoding of one range. -/
def encRange (r : ContigRange) : List Nat :=
  encU32 r.bed_idx ++ encU64 r.start_bp ++ encU64 r.end_bp ++ encU64 r.bgzf_pos

/-- A tile's on-disk range array: the tile stably sorted by `start_bp`
and each range encoded on 28 bytes. -/
def encTile (t : List ContigRange) : List Nat :=
  ((sortByStart t).map encRange).flatten

/-- Concatenated 4-byte encodings of a list of counters. -/
def encU32List (l : List Nat) : List Nat := (l.map encU32).flatten

/-- Magic number `#R_IDX`. -/
def magicBytes : List Nat := [35, 82, 95, 73, 68, 88]

/-- Per-contig tile counts of an index. -/
def tileCountsOf (idx : ContigIndex) : List Nat :=
  idx.contigs.map (fun c => c.contig_tiles.length)

/-- Per-contig, per-tile range counts of an index. -/
def rangeCountsOf (idx : ContigIndex) : List (List Nat) :=
  idx.contigs.map (fun c => c.contig_tiles.map (fun t => t.length))

/-- Fixed 20-byte header written by `save_index`: magic, format version
0, tile size, contig count, file count. -/
def headerBytes (idx : ContigIndex) : List Nat :=
  magicBytes ++ encU16 0 ++ encU32 idx.tile_size ++
    encU32 idx.contigs.length ++ encU32 idx.bgz_files.length

/-- The per-contig tile-count array block of the index file. -/
def tcBlock (idx : ContigIndex) : List Nat := encU32List (tileCountsOf idx)

/-- The row-major per-tile range-count array block of the index file. -/
def rcBlock (idx : ContigIndex) : List Nat := encU32List ((rangeCountsOf idx).flatten)

/-- The 40-byte-per-contig name blob of the index file. -/
def nameBlock (idx : ContigIndex) : List Nat :=
  (idx.contigs.map (fun c => name40 c.name)).flatten

/-- The 56-byte-per-file descriptor blob of the index file. -/
def fileBlock (idx : ContigIndex) : List Nat :=
  (idx.bgz_files.map encFileDesc).flatten

/-- The range-array blob of the index file, all tiles in contig-then-tile
order. -/
def rangeBlock (idx : ContigIndex) : List Nat :=
  (idx.contigs.map (fun c => (c.contig_tiles.map encTile).flatten)).flatten

/-- The bytes written by `ContigIndex::save_index`, in the order the
Rust code writes them: header, tile counts, range counts, 40-byte contig
names, 56-byte file descriptors, then every tile's sorted range array in
contig-then-tile order. -/
def save_index_bytes (idx : ContigIndex) : List Nat :=
  headerBytes idx ++ tcBlock idx ++ rcBlock idx ++ nameBlock idx ++
    fileBlock idx ++ rangeBlock idx

/-- One ingested record as seen by `build_idx`: contig name, owning file
index, start, end, and the pre-read bgzf virtual position. -/
structure RecordIn where
  contig : List Nat
  bed_idx : Nat
  start_bp : Nat
  end_bp : Nat
  bgzf_pos : Nat
deriving Repr, DecidableEq, Inhabited

/-- The empty index created by `prep_idx` (tile size 16384). -/
def emptyIndex : ContigIndex := ⟨16384, [], []⟩

/-- The in-memory index after `build_idx` ingests `records` from the
given files: each record is added with `add_contig_range`; the file
descriptors only accumulate in `bgz_files` and do not affect ranges, so
the interleaving of file pushes and ingestion in the Rust loop is
immaterial. -/
def buildFrom (records : List RecordIn) (files : List BGZFile) : ContigIndex :=
  { (records.foldl
      (fun idx r => add_contig_range idx r.contig r.bed_idx r.start_bp r.end_bp r.bgzf_pos)
      emptyIndex) with bgz_files := files }

/-- Little-endian decoding of the first 4 bytes of a byte list (missing
bytes read as 0, as the buffer is preallocated zero-filled). -/
def decU32 (l : List Nat) : Nat :=
  l.getD 0 0 + 256 * l.getD 1 0 + 65536 * l.getD 2 0 + 16777216 * l.getD 3 0

/-- Little-endian decoding of the first 8 bytes of a byte list. -/
def decU64 (l : List Nat) : Nat :=
  l.getD 0 0 + 256 * l.getD 1 0 + 65536 * l.getD 2 0 + 16777216 * l.getD 3 0 +
  4294967296 * l.getD 4 0 + 1099511627776 * l.getD 5 0 +
  281474976710656 * l.getD 6 0 + 72057594037927936 * l.getD 7 0

/-- Read the little-endian `u32` at byte position `pos` of a file. -/
def readU32At (bytes : List Nat) (pos : Nat) : Nat := decU32 (bytes.drop pos)

/-- Read the little-endian `u64` at byte position `pos` of a file. -/
def readU64At (bytes : List Nat) (pos : Nat) : Nat := decU64 (bytes.drop pos)

/-- Read `n` consecutive little-endian `u32`s starting at byte position
`pos` (`read_u32_into`). -/
def readU32Array (bytes : List Nat) (pos n : Nat) : List Nat :=
  (List.range n).map (fun i => readU32At bytes (pos + 4 * i))

/-- Sum of a list of counters. -/
def sumList (l : List Nat) : Nat := l.foldl (· + ·) 0

/-- The name stored for a 40-byte name field: the bytes before the first
zero byte (`init_search` cuts each 40-byte slice at its first null). -/
def takeToNull (l : List Nat) : List Nat := l.takeWhile (fun b => b ≠ 0)

/-- The wrapping-u32 starting offset of the range data computed by
`init_search`: `20 + file_count * 56 + contig_count * 44` plus 4 bytes
per tile, every operation performed in `u32`. -/
def loaderRangeDataStart (contig_count file_count : Nat) (tcs : List Nat) : Nat :=
  tcs.foldl (fun acc c => (acc + c * 4) % U32M)
    ((20 + file_count * 56 + contig_count * 44) % U32M)

/-- The `init_search` offset scan over one contig: emit the running
offset for each tile and advance it by `range_count * 28` in wrapping
u32 arithmetic; also return the final offset. -/
def scanTileOffsets (rcs : List Nat) (start : Nat) : List Nat × Nat :=
  match rcs with
  | [] => ([], start)
  | rc :: rest =>
    let p := scanTileOffsets rest ((start + rc * 28) % U32M)
    (start :: p.1, p.2)

/-- The `init_search` offset scan over all contigs, threading the
running offset from one contig to the next. -/
def scanContigOffsets (rcss : List (List Nat)) (start : Nat) : List (List Nat) :=
  match rcss with
  | [] => []
  | rcs :: rest =>
    let p := scanTileOffsets rcs start
    p.1 :: scanContigOffsets rest p.2

/-- The state loaded by `ContigIndex::init_search`: tile size, counts,
per-tile range counts, the computed per-tile byte-offset table, and the
contig-name lookup in insertion order (a later insertion of an equal key
overwrites an earlier one, as for the Rust `HashMap`). -/
structure LoadedIndex where
  tile_size : Nat
  contig_count : Nat
  file_count : Nat
  tile_counts : List Nat
  range_counts : List (List Nat)
  range_data_index : List (List Nat)
  contig_lookup : List (List Nat × Nat)
deriving Repr, Inhabited

/-- `ContigIndex::init_search` on the bytes of an index file.  The Rust
code reads the file strictly sequentially; each sequential read is
modelled by a read at its (equal) absolute position: tile counts start
at byte 20, the range counts of contig `c` follow the tile-count array
and the range counts of earlier contigs, and the name blob follows all
range counts. -/
def init_search (bytes : List Nat) : LoadedIndex :=
  let tile_size := readU32At bytes 8
  let contig_count := readU32At bytes 12
  let file_count := readU32At bytes 16
  let tcs := readU32Array bytes 20 contig_count
  let s := sumList tcs
  let rcs := (List.range contig_count).map
    (fun c => readU32Array bytes (20 + 4 * contig_count + 4 * sumList (tcs.take c)) (tcs.getD c 0))
  let offsets := scanContigOffsets rcs (loaderRangeDataStart contig_count file_count tcs)
  let nameBase := 20 + 4 * contig_count + 4 * s
  let lookup := (List.range contig_count).map
    (fun n => (takeToNull ((bytes.drop (nameBase + 40 * n)).take 40), n))
  ⟨tile_size, contig_count, file_count, tcs, rcs, offsets, lookup⟩

/-- Lookup in the loaded contig table; the last inserted binding for a
key wins, matching `HashMap::insert` applied in insertion order. -/
def lookupName (l : List (List Nat × Nat)) (k : List Nat) : Option Nat :=
  (l.reverse.find? (fun p => p.1 == k)).map (fun p => p.2)

/-- Decode the 28-byte range record at byte position `pos`
(`read_tile`'s per-record decoding). -/
def decRangeAt (bytes : List Nat) (pos : Nat) : ContigRange :=
  ⟨readU32At bytes pos, readU64At bytes (pos + 4),
   readU64At bytes (pos + 12), readU64At bytes (pos + 20)⟩

/-- `ContigIndex::read_tile`: seek to the tile's offset from the offset
table and decode `range_counts[c][t]` records of 28 bytes each. -/
def read_tile (bytes : List Nat) (li : LoadedIndex) (c t : Nat) : List ContigRange :=
  let count := (li.range_counts.getD c []).getD t 0
  let pos := (li.range_data_index.getD c []).getD t 0
  (List.range count).map (fun i => decRangeAt bytes (pos + 28 * i))

/-- Outcome of a query that does not return normally: the explicit
`Err` value for a start beyond the indexed tiles, or a Rust panic
(`unwrap` on `None`, out-of-bounds index, …). -/
inductive QErr where
  | outOfRange
  | panicked
deriving Repr, DecidableEq

/-- Decidable equality of query outcomes, for evaluating the concrete
scenarios. -/
instance (priority := low) exceptDecEq {ε : Type u} {α : Type v}
    [DecidableEq ε] [DecidableEq α] : DecidableEq (Except ε α)
  | .ok a, .ok b =>
    if h : a = b then .isTrue (by rw [h]) else .isFalse (by intro hh; cases hh; exact h rfl)
  | .error a, .error b =>
    if h : a = b then .isTrue (by rw [h]) else .isFalse (by intro hh; cases hh; exact h rfl)
  | .ok _, .error _ => .isFalse (by intro hh; cases hh)
  | .error _, .ok _ => .isFalse (by intro hh; cases hh)

/-- Lift the result of a Rust `unwrap`/index operation: `none` becomes a
panic. -/
def liftOpt : Option α → Except QErr α
  | none => .error .panicked
  | some a => .ok a

/-- Whitespace test on bytes (the ASCII fragment of Rust
`split_whitespace`). -/
def isWsByte (b : Nat) : Bool := b == 32 || b == 9 || b == 10 || b == 13

/-- Helper of `splitWs`: accumulate the current (reversed) field. -/
def splitWsAux : List Nat → List Nat → List (List Nat)
  | [], cur => if cur.isEmpty then [] else [cur.reverse]
  | b :: rest, cur =>
    if isWsByte b then
      if cur.isEmpty then splitWsAux rest [] else cur.reverse :: splitWsAux rest []
    else splitWsAux rest (b :: cur)

/-- Split a line into its whitespace-separated fields, dropping empty
fields (`str::split_whitespace`). -/
def splitWs (l : List Nat) : List (List Nat) := splitWsAux l []

/-- The NRPH check of `filter_line`: if the flag is set, the last field
must be the literal `"1"`; `fields.last().unwrap()` panics (`none`) on a
line with no fields. -/
def nrphCheck (fields : List (List Nat)) (q_nrph : Bool) : Option Bool :=
  if q_nrph then
    match fields.getLast? with
    | none => none
    | some lastF => if lastF = [49] then some true else some false
  else some true

/-- `filter_line` of `ContigIndex::search`: `some keep` is the returned
boolean, `none` is a panic (`fields[3]` on a short line, or
`fields.last().unwrap()` on an empty one).  The family filter compares
the part of field 3 before the first period (byte 46) with the query
accession. -/
def filter_line (line : List Nat) (q_family : Option (List Nat)) (q_nrph : Bool) : Option Bool :=
  let fields := splitWs line
  match q_family with
  | some fam =>
    match fields.get? 3 with
    | none => none
    | some f =>
      if f.takeWhile (fun b => b ≠ 46) ≠ fam then some false
      else nrphCheck fields q_nrph
  | none => nrphCheck fields q_nrph

/-- Retrieve and filter the record lines of a list of ranges, in order.
`env b p` is the line stored at virtual position `p` of data file `b`
(the bgzf reader is deterministic, so it is a pure function of the
environment); a `bed_idx` outside the file table panics, and a panic of
`filter_line` aborts the whole query. -/
def emitLines (env : Nat → Nat → List Nat) (nfiles : Nat)
    (q_family : Option (List Nat)) (q_nrph : Bool) :
    List ContigRange → Except QErr (List (List Nat))
  | [] => .ok []
  | r :: rest =>
    if r.bed_idx < nfiles then
      match filter_line (env r.bed_idx r.bgzf_pos) q_family q_nrph with
      | none => .error .panicked
      | some keep =>
        match emitLines env nfiles q_family q_nrph rest with
        | .error e => .error e
        | .ok out => .ok (if keep then env r.bed_idx r.bgzf_pos :: out else out)
    else .error .panicked

/-- The body of the binary-search while loop of the first-tile pass,
with an explicit step budget: every iteration shrinks `right - left`, so
a budget of `right - left` steps always reaches the exit condition. -/
def bsearchGo (v : List ContigRange) (q_end : Nat) : Nat → Nat → Nat → Nat
  | 0, left, _ => left
  | fuel + 1, left, right =>
    if left < right then
      if (v.getD ((left + right) / 2) default).start_bp < q_end then
        bsearchGo v q_end fuel ((left + right) / 2 + 1) right
      else bsearchGo v q_end fuel left ((left + right) / 2)
    else left

/-- The binary-search loop of the first-tile pass: left-bisect for the
first index whose range starts at or after `q_end`. -/
def bsearchLoop (v : List ContigRange) (q_end : Nat) (left right : Nat) : Nat :=
  bsearchGo v q_end (right - left) left right

/-- The backward walk of the first-tile pass: starting just below the
bisection point, collect ranges while `start_bp < q_end`, stopping at
the first failure. -/
def backwardCollect (v : List ContigRange) (q_end : Nat) : Nat → List ContigRange
  | 0 => []
  | i + 1 =>
    if (v.getD i default).start_bp < q_end then
      v.getD i default :: backwardCollect v q_end i
    else []

/-- The ranges emitted by the first-tile pass, in emission (ascending)
order: binary search, backward collection, then reversal. -/
def firstTileRanges (range_data : List ContigRange) (rc q_end : Nat) : List ContigRange :=
  (backwardCollect range_data q_end (bsearchLoop range_data q_end 0 rc)).reverse

/-- The ranges emitted while walking a middle or last tile: skip ranges
starting before the tile base, emit ranges starting before `q_end`, and
break at the first range starting at or after `q_end`. -/
def midTileRanges (base q_end : Nat) : List ContigRange → List ContigRange
  | [] => []
  | r :: rest =>
    if r.start_bp < base then midTileRanges base q_end rest
    else if r.start_bp < q_end then r :: midTileRanges base q_end rest
    else []

/-- The middle-and-last-tile loop of `search` over the tile indices in
`ts`, with `base` the coordinate base of the first of them: read each
tile's range count, and for a non-empty tile whose first range starts
before `q_end`, emit its matching lines. -/
def searchMidTiles (bytes : List Nat) (li : LoadedIndex) (env : Nat → Nat → List Nat)
    (q_family : Option (List Nat)) (q_nrph : Bool) (cIdx q_end : Nat) :
    List Nat → Nat → Except QErr (List (List Nat))
  | [], _ => .ok []
  | t :: ts, base =>
    match li.range_counts.get? cIdx with
    | none => .error .panicked
    | some rcs =>
      match rcs.get? t with
      | none => .error .panicked
      | some rc =>
        if rc > 0 then
          match (read_tile bytes li cIdx t).head? with
          | none => .error .panicked
          | some r0 =>
            if r0.start_bp < q_end then
              match emitLines env li.file_count q_family q_nrph
                  (midTileRanges base q_end (read_tile bytes li cIdx t)) with
              | .error e => .error e
              | .ok lines =>
                match searchMidTiles bytes li env q_family q_nrph cIdx q_end ts
                    (base + li.tile_size) with
                | .error e => .error e
                | .ok rest => .ok (lines ++ rest)
            else searchMidTiles bytes li env q_family q_nrph cIdx q_end ts (base + li.tile_size)
        else searchMidTiles bytes li env q_family q_nrph cIdx q_end ts (base + li.tile_size)

/-- `ContigIndex::search`.  Outcomes: `.ok lines` for a normal return,
`.error .outOfRange` for the explicit start-beyond-index error, and
`.error .panicked` wherever the Rust code would panic (the contig-name
`unwrap`, a division by a zero tile size, an out-of-bounds index into
`tile_counts` or `range_counts`, or a `filter_line` panic).  The
`tile_counts[c] - 1` clamp uses truncated subtraction; for an index
written by `save_index` every contig has at least one tile, so the
`u32` underflow at zero is unreachable. -/
def search (bytes : List Nat) (li : LoadedIndex) (env : Nat → Nat → List Nat)
    (q_contig : List Nat) (q_start q_end : Nat)
    (q_family : Option (List Nat)) (q_nrph : Bool) : Except QErr (List (List Nat)) :=
  match lookupName li.contig_lookup q_contig with
  | none => .error .panicked
  | some q_contig_idx =>
    if li.tile_size = 0 then .error .panicked
    else
      match li.tile_counts.get? q_contig_idx with
      | none => .error .panicked
      | some tc =>
        if q_start / li.tile_size > tc then .error .outOfRange
        else
          match li.range_counts.get? q_contig_idx with
          | none => .error .panicked
          | some rcs =>
            match rcs.get? (q_start / li.tile_size) with
            | none => .error .panicked
            | some rc0 =>
              if rc0 > 0 then
                match (read_tile bytes li q_contig_idx (q_start / li.tile_size)).head? with
                | none => .error .panicked
                | some r0 =>
                  match (if r0.start_bp < q_end then
                           emitLines env li.file_count q_family q_nrph
                             (firstTileRanges
                               (read_tile bytes li q_contig_idx (q_start / li.tile_size))
                               rc0 q_end)
                         else .ok []) with
                  | .error e => .error e
                  | .ok firstLines =>
                    match (if min ((q_end - 1) / li.tile_size) (tc - 1) >
                              q_start / li.tile_size then
                             searchMidTiles bytes li env q_family q_nrph q_contig_idx q_end
                               (List.range' (q_start / li.tile_size + 1)
                                 (min ((q_end - 1) / li.tile_size) (tc - 1) -
                                   q_start / li.tile_size))
                               (li.tile_size * (q_start / li.tile_size + 1))
                           else .ok []) with
                    | .error e => .error e
                    | .ok midLines => .ok (firstLines ++ midLines)
              else .ok []

/-- Build, persist, load and query in one step: the composition
exercised by `build_idx` followed by `search_idx`. -/
def searchBuilt (records : List RecordIn) (files : List BGZFile)
    (env : Nat → Nat → List Nat) (q_contig : List Nat) (q_start q_end : Nat)
    (q_family : Option (List Nat)) (q_nrph : Bool) : Except QErr (List (List Nat)) :=
  let bytes := save_index_bytes (buildFrom records files)
  search bytes (init_search bytes) env q_contig q_start q_end q_family q_nrph

/-- A deterministic line environment for the concrete scenarios: the
line of the record at virtual position `p` is the single byte `1000 + p`
(never whitespace, so it is one nonempty field). -/
def lineEnv (_b p : Nat) : List Nat := [1000 + p]

/-- The name bytes of contig `chr1`. -/
def chr1 : List Nat := [99, 104, 114, 49]

/-- The name bytes of contig `chr2`. -/
def chr2 : List Nat := [99, 104, 114, 50]

/-- A one-entry file table for the concrete scenarios. -/
def oneFile : List BGZFile := [⟨[97], [], 0⟩]

/-- The modulus of 64-bit unsigned arithmetic. -/
def U64M : Nat := 18446744073709551616

/-- Tile `t` of contig `c` of an in-memory index (empty when out of
range). -/
def tileOf (idx : ContigIndex) (c t : Nat) : List ContigRange :=
  ((idx.contigs.getD c default).contig_tiles).getD t []

/-- Tile `t` of the contig named `nm`, resolved as `get_or_insert_contig`
resolves names (first contig with that name). -/
def tileOfNamed (idx : ContigIndex) (nm : List Nat) (t : Nat) : List ContigRange :=
  match findContigIdx idx.contigs nm with
  | some c => tileOf idx c t
  | none => []

/-- Number of ranges of a tile that carry the storage pointer
`(bed_idx, bgzf_pos) = (b, p)`; a record's storage pointer is its
virtual position within its owning data file. -/
def countPtr (b p : Nat) (tile : List ContigRange) : Nat :=
  (tile.filter (fun r => r.bed_idx = b ∧ r.bgzf_pos = p)).length

/-- Number of on-disk ranges strictly before tile `(c, t)` in
contig-then-tile order. -/
def rangesBefore (idx : ContigIndex) (c t : Nat) : Nat :=
  sumList (((rangeCountsOf idx).take c).flatten) +
    sumList (((rangeCountsOf idx).getD c []).take t)

/-- The byte offset at which `save_index` writes the first byte of tile
`(c, t)`'s range array: the fixed base
`20 + F*56 + C*44 + S*4` plus 28 bytes per preceding range. -/
def builderTileOffset (idx : ContigIndex) (c t : Nat) : Nat :=
  20 + idx.bgz_files.length * 56 + idx.contigs.length * 44 +
    sumList (tileCountsOf idx) * 4 + 28 * rangesBefore idx c t

/-- Ranges are only stored in tiles their interval overlaps, so every
range of tile `t` starts before the end of tile `t`.  This is the part
of the replication invariant that the query algorithm's ordering
depends on. -/
def tilesAligned (idx : ContigIndex) : Prop :=
  ∀ c ∈ idx.contigs, ∀ t : Nat, ∀ r ∈ c.contig_tiles.getD t [],
    r.start_bp < idx.tile_size * (t + 1)

/-- All range fields of an index fit their on-disk widths. -/
def rangesBounded (idx : ContigIndex) : Prop :=
  ∀ c ∈ idx.contigs, ∀ t : Nat, ∀ r ∈ c.contig_tiles.getD t [],
    r.bed_idx < U32M ∧ r.start_bp < U64M ∧ r.end_bp < U64M ∧ r.bgzf_pos < U64M

/-- The persisted (stably start-sorted) tiles of contig `c`. -/
def persistedTiles (idx : ContigIndex) (c : Nat) : List (List ContigRange) :=
  (idx.contigs.getD c default).contig_tiles.map sortByStart

/-- The persisted ranges of contig `c`, all tiles concatenated in tile
order. -/
def persistedFlat (idx : ContigIndex) (c : Nat) : List ContigRange :=
  (persistedTiles idx c).flatten

example : (buildFrom [⟨chr1, 0, 100, 200, 3⟩] oneFile).contigs =
    [⟨chr1, [[⟨0, 100, 200, 3⟩]]⟩] := by decide

example : (buildFrom [⟨chr1, 0, 15000, 20000, 7⟩] oneFile).contigs =
    [⟨chr1, [[⟨0, 15000, 20000, 7⟩], [⟨0, 15000, 20000, 7⟩]]⟩] := by decide

/-! ## Byte-level encoding lemmas -/

theorem length_encU32 (n : Nat) : (encU32 n).length = 4 := rfl

theorem length_encU64 (n : Nat) : (encU64 n).length = 8 := rfl

theorem length_padTrunc (k : Nat) (l : List Nat) : (padTrunc k l).length = k := by
  simp [padTrunc]
  omega

theorem length_name40 (nm : List Nat) : (name40 nm).length = 40 := length_padTrunc 40 nm

theorem length_encFileDesc (f : BGZFile) : (encFileDesc f).length = 56 := by
  simp [encFileDesc, length_name40, length_padTrunc, length_encU64]

theorem length_encRange (r : ContigRange) : (encRange r).length = 28 := rfl

theorem length_encU32List (l : List Nat) : (encU32List l).length = 4 * l.length := by
  induction l with
  | nil => rfl
  | cons x xs ih =>
    simp only [encU32List, List.map_cons, List.flatten_cons, List.length_append,
      List.length_cons] at *
    rw [length_encU32]
    omega

theorem length_insertByStart (r : ContigRange) (l : List ContigRange) :
    (insertByStart r l).length = l.length + 1 := by
  induction l with
  | nil => rfl
  | cons x xs ih => by_cases h : x.start_bp ≤ r.start_bp <;> simp [insertByStart, h, ih]

theorem length_sortByStart (l : List ContigRange) : (sortByStart l).length = l.length := by
  suffices h : ∀ acc : List ContigRange,
      (l.foldl (fun acc r => insertByStart r acc) acc).length = acc.length + l.length by
    simpa using h []
  induction l with
  | nil => simp
  | cons x xs ih =>
    intro acc
    rw [List.foldl_cons, ih, length_insertByStart, List.length_cons]
    omega

theorem length_encTile (t : List ContigRange) : (encTile t).length = 28 * t.length := by
  rw [encTile, List.length_flatten, List.map_map]
  have h1 : ((sortByStart t).map (List.length ∘ encRange)) = (sortByStart t).map (fun _ => 28) :=
    List.map_congr_left (fun r _ => length_encRange r)
  rw [h1, List.map_const', List.sum_replicate, smul_eq_mul, length_sortByStart, Nat.mul_comm]

theorem length_headerBytes (idx : ContigIndex) : (headerBytes idx).length = 20 := by
  simp [headerBytes, magicBytes, encU16, encU32]

theorem decU32_encU32_append (n : Nat) (rest : List Nat) :
    decU32 (encU32 n ++ rest) = n % U32M := by
  simp only [encU32, List.cons_append, List.nil_append, decU32, U32M,
    List.getD_cons_zero, List.getD_cons_succ]
  omega

theorem decU64_encU64_append (n : Nat) (rest : List Nat) :
    decU64 (encU64 n ++ rest) = n % U64M := by
  simp only [encU64, List.cons_append, List.nil_append, decU64, U64M,
    List.getD_cons_zero, List.getD_cons_succ]
  omega

theorem readU32At_shift (a b : List Nat) (k : Nat) :
    readU32At (a ++ b) (a.length + k) = readU32At b k := by
  rw [readU32At, readU32At, List.drop_append]

theorem readU64At_shift (a b : List Nat) (k : Nat) :
    readU64At (a ++ b) (a.length + k) = readU64At b k := by
  rw [readU64At, readU64At, List.drop_append]

theorem readU32At_here (a : List Nat) (n : Nat) (rest : List Nat) :
    readU32At (a ++ (encU32 n ++ rest)) a.length = n % U32M := by
  have h := readU32At_shift a (encU32 n ++ rest) 0
  rw [Nat.add_zero] at h
  rw [h, readU32At, List.drop_zero, decU32_encU32_append]

theorem sumList_foldl : ∀ (l : List Nat) (a : Nat), l.foldl (· + ·) a = a + sumList l
  | [], a => by simp [sumList]
  | x :: xs, a => by
    have h1 := sumList_foldl xs (a + x)
    have h2 := sumList_foldl xs x
    simp only [sumList, List.foldl_cons, Nat.zero_add] at *
    omega

theorem sumList_cons (x : Nat) (l : List Nat) : sumList (x :: l) = x + sumList l := by
  rw [sumList, List.foldl_cons, Nat.zero_add, sumList_foldl]

theorem sumList_nil : sumList [] = 0 := rfl

theorem sumList_append (a b : List Nat) : sumList (a ++ b) = sumList a + sumList b := by
  induction a with
  | nil => simp [sumList_nil, sumList]
  | cons x xs ih => simp [sumList_cons, ih]; omega

theorem length_flatten_map {α : Type u} (f : α → List Nat) (k : Nat)
    (hf : ∀ x, (f x).length = k) (l : List α) : ((l.map f).flatten).length = k * l.length := by
  induction l with
  | nil => simp
  | cons x xs ih =>
    simp only [List.map_cons, List.flatten_cons, List.length_append, ih, hf x,
      List.length_cons]
    ring

theorem flatten_map_drop {α : Type u} (f : α → List Nat) (k : Nat)
    (hf : ∀ x, (f x).length = k) (l : List α) :
    ∀ (i : Nat) (rest : List Nat) (h : i < l.length),
    ((l.map f).flatten ++ rest).drop (k * i) =
      f l[i] ++ (((l.drop (i + 1)).map f).flatten ++ rest) := by
  induction l with
  | nil => intro i rest h; simp at h
  | cons x xs ih =>
    intro i rest h
    cases i with
    | zero =>
      simp [List.flatten_cons, List.append_assoc]
    | succ j =>
      have hk : k * (j + 1) = (f x).length + k * j := by rw [hf x]; ring
      rw [List.map_cons, List.flatten_cons, List.append_assoc, hk, List.drop_append]
      have hj : j < xs.length := by simpa using h
      rw [ih j rest hj]
      simp

theorem flatten_split_at {α : Type u} (g : α → List Nat) (l : List α)
    (i : Nat) (h : i < l.length) :
    (l.map g).flatten =
      ((l.take i).map g).flatten ++ (g l[i] ++ ((l.drop (i + 1)).map g).flatten) := by
  have hsplit : l = l.take i ++ (l[i] :: l.drop (i + 1)) := by
    conv_lhs => rw [← List.take_append_drop i l, List.drop_eq_getElem_cons h]
  conv_lhs => rw [hsplit]
  rw [List.map_append, List.flatten_append, List.map_cons, List.flatten_cons]

theorem length_readU32Array (bytes : List Nat) (pos n : Nat) :
    (readU32Array bytes pos n).length = n := by simp [readU32Array]

theorem readU32Array_load (a : List Nat) (l : List Nat) (rest : List Nat)
    (hb : ∀ x ∈ l, x < U32M) :
    readU32Array (a ++ (encU32List l ++ rest)) a.length l.length = l := by
  apply List.ext_getElem (by simp [length_readU32Array])
  intro i h1 h2
  simp only [readU32Array, List.getElem_map, List.getElem_range]
  rw [readU32At_shift, readU32At]
  have hi : i < l.length := h2
  have hd := flatten_map_drop encU32 4 length_encU32 l i rest hi
  rw [show encU32List l = (l.map encU32).flatten from rfl, hd]
  rw [decU32_encU32_append]
  exact Nat.mod_eq_of_lt (hb _ (List.getElem_mem hi))

/-! ## Loader round-trip lemmas -/

theorem sumList_eq_sum (l : List Nat) : sumList l = l.sum := by
  induction l with
  | nil => rfl
  | cons x xs ih => rw [sumList_cons, List.sum_cons, ih]

theorem length_tileCountsOf (idx : ContigIndex) :
    (tileCountsOf idx).length = idx.contigs.length := by simp [tileCountsOf]

theorem length_rangeCountsOf (idx : ContigIndex) :
    (rangeCountsOf idx).length = idx.contigs.length := by simp [rangeCountsOf]

theorem map_length_rangeCountsOf (idx : ContigIndex) :
    (rangeCountsOf idx).map List.length = tileCountsOf idx := by
  simp [rangeCountsOf, tileCountsOf, List.map_map]

theorem length_flatten_sumList (L : List (List Nat)) :
    L.flatten.length = sumList (L.map List.length) := by
  rw [List.length_flatten, sumList_eq_sum]

theorem length_tcBlock (idx : ContigIndex) :
    (tcBlock idx).length = 4 * idx.contigs.length := by
  rw [tcBlock, length_encU32List, length_tileCountsOf]

theorem length_rcBlock (idx : ContigIndex) :
    (rcBlock idx).length = 4 * sumList (tileCountsOf idx) := by
  rw [rcBlock, length_encU32List, length_flatten_sumList, map_length_rangeCountsOf]

theorem length_nameBlock (idx : ContigIndex) :
    (nameBlock idx).length = 40 * idx.contigs.length := by
  have h := length_flatten_map (fun c : Contig => name40 c.name) 40
    (fun c => length_name40 c.name) idx.contigs
  rw [nameBlock, h]

theorem length_fileBlock (idx : ContigIndex) :
    (fileBlock idx).length = 56 * idx.bgz_files.length := by
  rw [fileBlock, length_flatten_map encFileDesc 56 length_encFileDesc]

theorem length_contigRanges (c : Contig) :
    ((c.contig_tiles.map encTile).flatten).length = 28 * sumList (c.contig_tiles.map List.length) := by
  rw [List.length_flatten, List.map_map, sumList_eq_sum]
  induction c.contig_tiles with
  | nil => simp
  | cons t ts ih =>
    simp only [List.map_cons, List.sum_cons, Function.comp_apply, length_encTile] at *
    rw [ih]
    ring

theorem length_rangeBlock_aux (cs : List Contig) :
    ((cs.map (fun c => (c.contig_tiles.map encTile).flatten)).flatten).length
      = 28 * sumList ((cs.map (fun c => c.contig_tiles.map List.length)).flatten) := by
  induction cs with
  | nil => simp [sumList_nil]
  | cons c cs ih =>
    simp only [List.map_cons, List.flatten_cons, List.length_append, sumList_append]
    rw [ih, length_contigRanges]
    ring

theorem length_rangeBlock (idx : ContigIndex) :
    (rangeBlock idx).length = 28 * sumList ((rangeCountsOf idx).flatten) := by
  rw [rangeBlock, rangeCountsOf]
  exact length_rangeBlock_aux idx.contigs

theorem length_save_index_bytes (idx : ContigIndex) :
    (save_index_bytes idx).length =
      20 + 44 * idx.contigs.length + 4 * sumList (tileCountsOf idx) +
        56 * idx.bgz_files.length + 28 * sumList ((rangeCountsOf idx).flatten) := by
  simp only [save_index_bytes, List.length_append, length_headerBytes, length_tcBlock,
    length_rcBlock, length_nameBlock, length_fileBlock, length_rangeBlock]
  ring

theorem init_search_tile_size (bytes : List Nat) :
    (init_search bytes).tile_size = readU32At bytes 8 := rfl

theorem init_search_contig_count (bytes : List Nat) :
    (init_search bytes).contig_count = readU32At bytes 12 := rfl

theorem init_search_file_count (bytes : List Nat) :
    (init_search bytes).file_count = readU32At bytes 16 := rfl

theorem init_search_tile_counts (bytes : List Nat) :
    (init_search bytes).tile_counts = readU32Array bytes 20 (readU32At bytes 12) := rfl

theorem init_search_range_counts (bytes : List Nat) :
    (init_search bytes).range_counts =
      (List.range (readU32At bytes 12)).map
        (fun c => readU32Array bytes
          (20 + 4 * readU32At bytes 12 +
            4 * sumList ((readU32Array bytes 20 (readU32At bytes 12)).take c))
          ((readU32Array bytes 20 (readU32At bytes 12)).getD c 0)) := rfl

theorem init_search_range_data_index (bytes : List Nat) :
    (init_search bytes).range_data_index =
      scanContigOffsets
        ((List.range (readU32At bytes 12)).map
          (fun c => readU32Array bytes
            (20 + 4 * readU32At bytes 12 +
              4 * sumList ((readU32Array bytes 20 (readU32At bytes 12)).take c))
            ((readU32Array bytes 20 (readU32At bytes 12)).getD c 0)))
        (loaderRangeDataStart (readU32At bytes 12) (readU32At bytes 16)
          (readU32Array bytes 20 (readU32At bytes 12))) := rfl

theorem init_search_contig_lookup (bytes : List Nat) :
    (init_search bytes).contig_lookup =
      (List.range (readU32At bytes 12)).map
        (fun n => (takeToNull
          ((bytes.drop (20 + 4 * readU32At bytes 12 +
              4 * sumList (readU32Array bytes 20 (readU32At bytes 12)) + 40 * n)).take 40), n)) := rfl

theorem readTS (idx : ContigIndex) (h : idx.tile_size < U32M) :
    readU32At (save_index_bytes idx) 8 = idx.tile_size := by
  have hb : save_index_bytes idx = (magicBytes ++ encU16 0) ++
      (encU32 idx.tile_size ++ (encU32 idx.contigs.length ++ (encU32 idx.bgz_files.length ++
        (tcBlock idx ++ (rcBlock idx ++ (nameBlock idx ++
          (fileBlock idx ++ rangeBlock idx))))))) := by
    simp only [save_index_bytes, headerBytes, List.append_assoc]
  rw [hb, show (8 : Nat) = (magicBytes ++ encU16 0).length from rfl, readU32At_here]
  exact Nat.mod_eq_of_lt h

theorem readCC (idx : ContigIndex) (h : idx.contigs.length < U32M) :
    readU32At (save_index_bytes idx) 12 = idx.contigs.length := by
  have hb : save_index_bytes idx = (magicBytes ++ encU16 0 ++ encU32 idx.tile_size) ++
      (encU32 idx.contigs.length ++ (encU32 idx.bgz_files.length ++
        (tcBlock idx ++ (rcBlock idx ++ (nameBlock idx ++
          (fileBlock idx ++ rangeBlock idx)))))) := by
    simp only [save_index_bytes, headerBytes, List.append_assoc]
  rw [hb, show (12 : Nat) = (magicBytes ++ encU16 0 ++ encU32 idx.tile_size).length by
    simp [magicBytes, encU16, encU32], readU32At_here]
  exact Nat.mod_eq_of_lt h

theorem readFC (idx : ContigIndex) (h : idx.bgz_files.length < U32M) :
    readU32At (save_index_bytes idx) 16 = idx.bgz_files.length := by
  have hb : save_index_bytes idx =
      (magicBytes ++ encU16 0 ++ encU32 idx.tile_size ++ encU32 idx.contigs.length) ++
      (encU32 idx.bgz_files.length ++ (tcBlock idx ++ (rcBlock idx ++ (nameBlock idx ++
        (fileBlock idx ++ rangeBlock idx))))) := by
    simp only [save_index_bytes, headerBytes, List.append_assoc]
  rw [hb, show (16 : Nat) =
    (magicBytes ++ encU16 0 ++ encU32 idx.tile_size ++ encU32 idx.contigs.length).length by
      simp [magicBytes, encU16, encU32], readU32At_here]
  exact Nat.mod_eq_of_lt h

theorem readTCS (idx : ContigIndex) (htc : ∀ x ∈ tileCountsOf idx, x < U32M) :
    readU32Array (save_index_bytes idx) 20 idx.contigs.length = tileCountsOf idx := by
  have hb : save_index_bytes idx = headerBytes idx ++
      (encU32List (tileCountsOf idx) ++ (rcBlock idx ++ (nameBlock idx ++
        (fileBlock idx ++ rangeBlock idx)))) := by
    simp only [save_index_bytes, tcBlock, List.append_assoc]
  rw [hb, show (20 : Nat) = (headerBytes idx).length from (length_headerBytes idx).symm,
    ← length_tileCountsOf idx]
  exact readU32Array_load _ _ _ htc

theorem encU32List_append (a b : List Nat) :
    encU32List (a ++ b) = encU32List a ++ encU32List b := by
  simp [encU32List, List.map_append, List.flatten_append]

theorem flatten_split_list (L : List (List Nat)) (c : Nat) (h : c < L.length) :
    L.flatten = (L.take c).flatten ++ (L[c] ++ (L.drop (c + 1)).flatten) := by
  have h2 := flatten_split_at (fun x => x) L c h
  simpa using h2

theorem length_flatten_take_rc (idx : ContigIndex) (c : Nat) :
    (((rangeCountsOf idx).take c).flatten).length = sumList ((tileCountsOf idx).take c) := by
  rw [length_flatten_sumList, List.map_take, map_length_rangeCountsOf]

theorem tc_getD_count (idx : ContigIndex) (c : Nat) (h : c < (rangeCountsOf idx).length) :
    (tileCountsOf idx).getD c 0 = ((rangeCountsOf idx)[c]).length := by
  have h2 : c < (tileCountsOf idx).length := by
    rw [length_tileCountsOf]; rw [length_rangeCountsOf] at h; exact h
  rw [List.getD_eq_getElem _ _ h2]
  simp [tileCountsOf, rangeCountsOf]

theorem readRCS (idx : ContigIndex)
    (hrc : ∀ l ∈ rangeCountsOf idx, ∀ x ∈ l, x < U32M)
    (c : Nat) (hc : c < idx.contigs.length) :
    readU32Array (save_index_bytes idx)
      (20 + 4 * idx.contigs.length + 4 * sumList ((tileCountsOf idx).take c))
      ((tileCountsOf idx).getD c 0) = (rangeCountsOf idx).getD c [] := by
  have hcl : c < (rangeCountsOf idx).length := by rw [length_rangeCountsOf]; exact hc
  have hsplit := flatten_split_list (rangeCountsOf idx) c hcl
  have hb : save_index_bytes idx =
      ((headerBytes idx ++ tcBlock idx) ++ encU32List (((rangeCountsOf idx).take c).flatten)) ++
      (encU32List ((rangeCountsOf idx)[c]) ++
        (encU32List (((rangeCountsOf idx).drop (c + 1)).flatten) ++ (nameBlock idx ++
          (fileBlock idx ++ rangeBlock idx)))) := by
    rw [save_index_bytes, rcBlock, hsplit, encU32List_append, encU32List_append]
    simp only [List.append_assoc]
  have hpos : 20 + 4 * idx.contigs.length + 4 * sumList ((tileCountsOf idx).take c)
      = ((headerBytes idx ++ tcBlock idx) ++
          encU32List (((rangeCountsOf idx).take c).flatten)).length := by
    simp only [List.length_append, length_headerBytes, length_tcBlock, length_encU32List,
      length_flatten_take_rc]
  rw [hb, hpos, tc_getD_count idx c hcl, List.getD_eq_getElem _ _ hcl]
  exact readU32Array_load _ _ _
    (fun x hx => hrc _ (List.getElem_mem hcl) x hx)

theorem map_range_getD {α : Type u} (L : List α) (d : α) :
    (List.range L.length).map (fun i => L.getD i d) = L := by
  apply List.ext_getElem (by simp)
  intro i h1 h2
  have h3 : i < L.length := by simpa using h1
  simp only [List.getElem_map, List.getElem_range]
  rw [List.getD_eq_getElem _ _ h3]

theorem load_tile_size (idx : ContigIndex) (h : idx.tile_size < U32M) :
    (init_search (save_index_bytes idx)).tile_size = idx.tile_size := by
  rw [init_search_tile_size, readTS idx h]

theorem load_contig_count (idx : ContigIndex) (h : idx.contigs.length < U32M) :
    (init_search (save_index_bytes idx)).contig_count = idx.contigs.length := by
  rw [init_search_contig_count, readCC idx h]

theorem load_file_count (idx : ContigIndex) (h : idx.bgz_files.length < U32M) :
    (init_search (save_index_bytes idx)).file_count = idx.bgz_files.length := by
  rw [init_search_file_count, readFC idx h]

theorem load_tile_counts (idx : ContigIndex) (hC : idx.contigs.length < U32M)
    (htc : ∀ x ∈ tileCountsOf idx, x < U32M) :
    (init_search (save_index_bytes idx)).tile_counts = tileCountsOf idx := by
  rw [init_search_tile_counts, readCC idx hC, readTCS idx htc]

theorem load_range_counts (idx : ContigIndex) (hC : idx.contigs.length < U32M)
    (htc : ∀ x ∈ tileCountsOf idx, x < U32M)
    (hrc : ∀ l ∈ rangeCountsOf idx, ∀ x ∈ l, x < U32M) :
    (init_search (save_index_bytes idx)).range_counts = rangeCountsOf idx := by
  rw [init_search_range_counts, readCC idx hC, readTCS idx htc]
  calc (List.range idx.contigs.length).map
        (fun c => readU32Array (save_index_bytes idx)
          (20 + 4 * idx.contigs.length + 4 * sumList ((tileCountsOf idx).take c))
          ((tileCountsOf idx).getD c 0))
      = (List.range idx.contigs.length).map (fun c => (rangeCountsOf idx).getD c []) :=
        List.map_congr_left (fun c hcmem => readRCS idx hrc c (List.mem_range.mp hcmem))
    _ = rangeCountsOf idx := by
        rw [show idx.contigs.length = (rangeCountsOf idx).length from
          (length_rangeCountsOf idx).symm]
        exact map_range_getD _ _

theorem foldl_mod_add (l : List Nat) : ∀ x : Nat,
    l.foldl (fun acc c => (acc + c * 4) % U32M) (x % U32M) = (x + 4 * sumList l) % U32M := by
  induction l with
  | nil => intro x; simp [sumList_nil]
  | cons c cs ih =>
    intro x
    rw [List.foldl_cons, Nat.mod_add_mod, ih (x + c * 4), sumList_cons]
    congr 1
    ring

theorem loaderRangeDataStart_eq (C F : Nat) (tcs : List Nat) :
    loaderRangeDataStart C F tcs = (20 + F * 56 + C * 44 + 4 * sumList tcs) % U32M := by
  rw [loaderRangeDataStart]
  exact foldl_mod_add tcs (20 + F * 56 + C * 44)

theorem scanTileOffsets_getD (rcs : List Nat) : ∀ (s t : Nat), t < rcs.length →
    ((scanTileOffsets rcs (s % U32M)).1).getD t 0 = (s + 28 * sumList (rcs.take t)) % U32M := by
  induction rcs with
  | nil => intro s t h; simp at h
  | cons rc rest ih =>
    intro s t h
    cases t with
    | zero => simp [scanTileOffsets, sumList_nil]
    | succ t =>
      have h2 : t < rest.length := by simpa using h
      simp only [scanTileOffsets, List.getD_cons_succ]
      rw [Nat.mod_add_mod, ih (s + rc * 28) t h2, List.take_succ_cons, sumList_cons]
      congr 1
      ring

theorem scanTileOffsets_snd (rcs : List Nat) : ∀ s : Nat,
    (scanTileOffsets rcs (s % U32M)).2 = (s + 28 * sumList rcs) % U32M := by
  induction rcs with
  | nil => intro s; simp [scanTileOffsets, sumList_nil]
  | cons rc rest ih =>
    intro s
    simp only [scanTileOffsets]
    rw [Nat.mod_add_mod, ih (s + rc * 28), sumList_cons]
    congr 1
    ring

theorem scanContigOffsets_getD (rcss : List (List Nat)) : ∀ (s c t : Nat),
    c < rcss.length → t < (rcss.getD c []).length →
    ((scanContigOffsets rcss (s % U32M)).getD c []).getD t 0 =
      (s + 28 * (sumList ((rcss.take c).flatten) + sumList ((rcss.getD c []).take t))) % U32M := by
  induction rcss with
  | nil => intro s c t hc ht; simp at hc
  | cons rcs rest ih =>
    intro s c t hc ht
    cases c with
    | zero =>
      simp only [scanContigOffsets, List.getD_cons_zero, List.take_zero, List.flatten_nil,
        sumList_nil, Nat.zero_add] at *
      exact scanTileOffsets_getD rcs s t ht
    | succ c =>
      have hc2 : c < rest.length := by simpa using hc
      have ht2 : t < (rest.getD c []).length := by simpa using ht
      simp only [scanContigOffsets, List.getD_cons_succ]
      rw [scanTileOffsets_snd rcs s, ih (s + 28 * sumList rcs) c t hc2 ht2,
        List.take_succ_cons, List.flatten_cons, sumList_append]
      congr 1
      ring

theorem elem_le_sumList (l : List Nat) (x : Nat) (h : x ∈ l) : x ≤ sumList l := by
  induction l with
  | nil => simp at h
  | cons y ys ih =>
    rw [sumList_cons]
    rcases List.mem_cons.mp h with rfl | h2
    · omega
    · have := ih h2; omega

theorem sumList_flatten (L : List (List Nat)) :
    sumList L.flatten = sumList (L.map sumList) := by
  induction L with
  | nil => rfl
  | cons l ls ih => simp [List.flatten_cons, sumList_append, sumList_cons, ih]

theorem bounds_from_hlen (idx : ContigIndex)
    (hlen : (save_index_bytes idx).length < U32M) :
    idx.contigs.length < U32M ∧ idx.bgz_files.length < U32M ∧
      (∀ x ∈ tileCountsOf idx, x < U32M) ∧
      (∀ l ∈ rangeCountsOf idx, ∀ x ∈ l, x < U32M) := by
  rw [length_save_index_bytes] at hlen
  refine ⟨by omega, by omega, ?_, ?_⟩
  · intro x hx
    have := elem_le_sumList _ _ hx
    omega
  · intro l hl x hx
    have h1 := elem_le_sumList _ _ hx
    have h2 : sumList l ≤ sumList ((rangeCountsOf idx).flatten) := by
      rw [sumList_flatten]
      exact elem_le_sumList _ _ (List.mem_map_of_mem sumList hl)
    omega

theorem rcsMapEq (idx : ContigIndex)
    (hrc : ∀ l ∈ rangeCountsOf idx, ∀ x ∈ l, x < U32M) :
    (List.range idx.contigs.length).map
      (fun c => readU32Array (save_index_bytes idx)
        (20 + 4 * idx.contigs.length + 4 * sumList ((tileCountsOf idx).take c))
        ((tileCountsOf idx).getD c 0)) = rangeCountsOf idx := by
  calc (List.range idx.contigs.length).map
        (fun c => readU32Array (save_index_bytes idx)
          (20 + 4 * idx.contigs.length + 4 * sumList ((tileCountsOf idx).take c))
          ((tileCountsOf idx).getD c 0))
      = (List.range idx.contigs.length).map (fun c => (rangeCountsOf idx).getD c []) :=
        List.map_congr_left (fun c hcmem => readRCS idx hrc c (List.mem_range.mp hcmem))
    _ = rangeCountsOf idx := by
        rw [show idx.contigs.length = (rangeCountsOf idx).length from
          (length_rangeCountsOf idx).symm]
        exact map_range_getD _ _

theorem sumList_take_le (l : List Nat) (t : Nat) : sumList (l.take t) ≤ sumList l := by
  conv_rhs => rw [← List.take_append_drop t l]
  rw [sumList_append]
  omega

theorem rangesBefore_le (idx : ContigIndex) (c t : Nat) (hc : c < (rangeCountsOf idx).length) :
    rangesBefore idx c t ≤ sumList ((rangeCountsOf idx).flatten) := by
  rw [rangesBefore, List.getD_eq_getElem _ _ hc,
    flatten_split_list (rangeCountsOf idx) c hc, sumList_append, sumList_append]
  have h1 := sumList_take_le ((rangeCountsOf idx)[c]) t
  omega

theorem builderTileOffset_le (idx : ContigIndex) (c t : Nat)
    (hc : c < idx.contigs.length) :
    builderTileOffset idx c t ≤ (save_index_bytes idx).length := by
  rw [builderTileOffset, length_save_index_bytes]
  have h1 := rangesBefore_le idx c t (by rw [length_rangeCountsOf]; exact hc)
  omega

theorem length_encTiles (ts : List (List ContigRange)) :
    ((ts.map encTile).flatten).length = 28 * sumList (ts.map List.length) := by
  induction ts with
  | nil => simp [sumList_nil]
  | cons t rest ih =>
    simp only [List.map_cons, List.flatten_cons, List.length_append, length_encTile,
      sumList_cons, ih]
    ring

theorem tileOf_getElem (idx : ContigIndex) (c t : Nat) (hc : c < idx.contigs.length)
    (ht : t < (idx.contigs[c]).contig_tiles.length) :
    tileOf idx c t = (idx.contigs[c]).contig_tiles[t] := by
  rw [tileOf, List.getD_eq_getElem _ _ hc, List.getD_eq_getElem _ _ ht]

theorem rc_getD_eq (idx : ContigIndex) (c : Nat) (hc : c < idx.contigs.length) :
    (rangeCountsOf idx).getD c [] = (idx.contigs[c]).contig_tiles.map List.length := by
  have hc2 : c < (rangeCountsOf idx).length := by rw [length_rangeCountsOf]; exact hc
  rw [List.getD_eq_getElem _ _ hc2]
  simp [rangeCountsOf]

theorem save_drop_at_tile (idx : ContigIndex) (c t : Nat)
    (hc : c < idx.contigs.length) (ht : t < (idx.contigs[c]).contig_tiles.length) :
    ∃ rest : List Nat,
      (save_index_bytes idx).drop (builderTileOffset idx c t) =
        encTile (tileOf idx c t) ++ rest := by
  have hsplit1 := flatten_split_at (fun c => (c.contig_tiles.map encTile).flatten)
    idx.contigs c hc
  have hsplit2 := flatten_split_at encTile (idx.contigs[c]).contig_tiles t ht
  have hb : save_index_bytes idx =
      ((headerBytes idx ++ tcBlock idx ++ rcBlock idx ++ nameBlock idx ++ fileBlock idx ++
        ((idx.contigs.take c).map (fun c => (c.contig_tiles.map encTile).flatten)).flatten ++
        (((idx.contigs[c]).contig_tiles.take t).map encTile).flatten)) ++
      (encTile ((idx.contigs[c]).contig_tiles[t]) ++
        ((((idx.contigs[c]).contig_tiles.drop (t + 1)).map encTile).flatten ++
         ((idx.contigs.drop (c + 1)).map (fun c => (c.contig_tiles.map encTile).flatten)).flatten)) := by
    rw [save_index_bytes, rangeBlock, hsplit1, hsplit2]
    simp only [List.append_assoc]
  have hoff : builderTileOffset idx c t =
      ((headerBytes idx ++ tcBlock idx ++ rcBlock idx ++ nameBlock idx ++ fileBlock idx ++
        ((idx.contigs.take c).map (fun c => (c.contig_tiles.map encTile).flatten)).flatten ++
        (((idx.contigs[c]).contig_tiles.take t).map encTile).flatten)).length := by
    simp only [List.length_append, length_headerBytes, length_tcBlock, length_rcBlock,
      length_nameBlock, length_fileBlock, length_rangeBlock_aux, length_encTiles]
    rw [builderTileOffset, rangesBefore]
    have e1 : (idx.contigs.take c).map (fun c => c.contig_tiles.map List.length)
        = (rangeCountsOf idx).take c := by
      rw [rangeCountsOf, List.map_take]
    have e2 : ((idx.contigs[c]).contig_tiles.take t).map List.length
        = ((rangeCountsOf idx).getD c []).take t := by
      rw [rc_getD_eq idx c hc, List.map_take]
    rw [e1, e2]
    ring
  rw [hb, hoff, List.drop_left]
  exact ⟨_, by rw [tileOf_getElem idx c t hc ht]⟩

theorem load_range_data_index (idx : ContigIndex)
    (hC : idx.contigs.length < U32M) (hF : idx.bgz_files.length < U32M)
    (htc : ∀ x ∈ tileCountsOf idx, x < U32M)
    (hrc : ∀ l ∈ rangeCountsOf idx, ∀ x ∈ l, x < U32M)
    (c t : Nat) (hc : c < idx.contigs.length)
    (ht : t < ((rangeCountsOf idx).getD c []).length) :
    (((init_search (save_index_bytes idx)).range_data_index).getD c []).getD t 0 =
      builderTileOffset idx c t % U32M := by
  rw [init_search_range_data_index, readCC idx hC, readTCS idx htc, readFC idx hF,
    rcsMapEq idx hrc, loaderRangeDataStart_eq]
  rw [scanContigOffsets_getD (rangeCountsOf idx) _ c t
    (by rw [length_rangeCountsOf]; exact hc) ht]
  rw [builderTileOffset, rangesBefore]
  congr 1
  ring

/-! ## Stable-sort lemmas -/

theorem mem_insertByStart (r x : ContigRange) (l : List ContigRange) :
    x ∈ insertByStart r l ↔ x = r ∨ x ∈ l := by
  induction l with
  | nil => simp [insertByStart]
  | cons y ys ih =>
    by_cases h : y.start_bp ≤ r.start_bp
    · simp only [insertByStart, if_pos h, List.mem_cons, ih]
      tauto
    · simp only [insertByStart, if_neg h, List.mem_cons]

theorem mem_foldl_insert (l : List ContigRange) : ∀ (acc : List ContigRange) (x : ContigRange),
    x ∈ l.foldl (fun a r => insertByStart r a) acc ↔ x ∈ acc ∨ x ∈ l := by
  induction l with
  | nil => intro acc x; simp
  | cons y ys ih =>
    intro acc x
    rw [List.foldl_cons, ih, mem_insertByStart]
    simp only [List.mem_cons]
    tauto

theorem mem_sortByStart (x : ContigRange) (l : List ContigRange) :
    x ∈ sortByStart l ↔ x ∈ l := by
  rw [sortByStart, mem_foldl_insert]
  simp

theorem pairwise_insertByStart (r : ContigRange) (l : List ContigRange)
    (h : l.Pairwise (fun a b => a.start_bp ≤ b.start_bp)) :
    (insertByStart r l).Pairwise (fun a b => a.start_bp ≤ b.start_bp) := by
  induction l with
  | nil => simp [insertByStart]
  | cons y ys ih =>
    rcases List.pairwise_cons.mp h with ⟨hy, hys⟩
    by_cases hle : y.start_bp ≤ r.start_bp
    · rw [insertByStart, if_pos hle]
      refine List.pairwise_cons.mpr ⟨?_, ih hys⟩
      intro z hz
      rcases (mem_insertByStart r z ys).mp hz with rfl | hz2
      · exact hle
      · exact hy z hz2
    · rw [insertByStart, if_neg hle]
      refine List.pairwise_cons.mpr ⟨?_, h⟩
      intro z hz
      rcases List.mem_cons.mp hz with rfl | hz2
      · omega
      · have := hy z hz2; omega

theorem pairwise_foldl_insert (l : List ContigRange) : ∀ (acc : List ContigRange),
    acc.Pairwise (fun a b => a.start_bp ≤ b.start_bp) →
    (l.foldl (fun a r => insertByStart r a) acc).Pairwise
      (fun a b => a.start_bp ≤ b.start_bp) := by
  induction l with
  | nil => intro acc h; simpa using h
  | cons y ys ih =>
    intro acc h
    rw [List.foldl_cons]
    exact ih _ (pairwise_insertByStart y acc h)

theorem sorted_sortByStart (l : List ContigRange) :
    (sortByStart l).Pairwise (fun a b => a.start_bp ≤ b.start_bp) :=
  pairwise_foldl_insert l [] List.Pairwise.nil

theorem filter_insertByStart (r : ContigRange) (l : List ContigRange) (k : Nat)
    (h : l.Pairwise (fun a b => a.start_bp ≤ b.start_bp)) :
    (insertByStart r l).filter (fun x => x.start_bp == k) =
      if r.start_bp = k then l.filter (fun x => x.start_bp == k) ++ [r]
      else l.filter (fun x => x.start_bp == k) := by
  induction l with
  | nil =>
    by_cases hk : r.start_bp = k
    · rw [if_pos hk]
      simp [insertByStart, hk]
    · rw [if_neg hk]
      simp [insertByStart, hk]
  | cons y ys ih =>
    rcases List.pairwise_cons.mp h with ⟨hy, hys⟩
    by_cases hle : y.start_bp ≤ r.start_bp
    · rw [insertByStart, if_pos hle]
      by_cases hyk : y.start_bp = k
      · rw [List.filter_cons_of_pos (by simp [hyk]), List.filter_cons_of_pos (by simp [hyk]),
          ih hys]
        by_cases hk : r.start_bp = k
        · rw [if_pos hk, if_pos hk, List.cons_append]
        · rw [if_neg hk, if_neg hk]
      · rw [List.filter_cons_of_neg (by simp [hyk]), List.filter_cons_of_neg (by simp [hyk]),
          ih hys]
    · rw [insertByStart, if_neg hle]
      by_cases hk : r.start_bp = k
      · have hnone : (y :: ys).filter (fun x => x.start_bp == k) = [] := by
          apply List.filter_eq_nil_iff.mpr
          intro z hz
          have hz2 : z.start_bp ≠ k := by
            rcases List.mem_cons.mp hz with rfl | hz3
            · omega
            · have := hy z hz3; omega
          simp [hz2]
        rw [if_pos hk, List.filter_cons_of_pos (by simp [hk]), hnone]
        simp
      · rw [if_neg hk, List.filter_cons_of_neg (by simp [hk])]

theorem filter_foldl_insert (l : List ContigRange) (k : Nat) : ∀ (acc : List ContigRange),
    acc.Pairwise (fun a b => a.start_bp ≤ b.start_bp) →
    (l.foldl (fun a r => insertByStart r a) acc).filter (fun x => x.start_bp == k) =
      acc.filter (fun x => x.start_bp == k) ++ l.filter (fun x => x.start_bp == k) := by
  induction l with
  | nil => intro acc h; simp
  | cons y ys ih =>
    intro acc h
    rw [List.foldl_cons, ih _ (pairwise_insertByStart y acc h),
      filter_insertByStart y acc k h]
    by_cases hk : y.start_bp = k
    · rw [if_pos hk, List.filter_cons_of_pos (by simp [hk]), List.append_assoc]
      simp
    · rw [if_neg hk, List.filter_cons_of_neg (by simp [hk])]

theorem stable_sortByStart (l : List ContigRange) (k : Nat) :
    (sortByStart l).filter (fun x => x.start_bp == k) =
      l.filter (fun x => x.start_bp == k) := by
  rw [sortByStart, filter_foldl_insert l k [] List.Pairwise.nil]
  simp

/-! ## Name-blob and range-array round trips -/

theorem nameAt (idx : ContigIndex) (n : Nat) (hn : n < idx.contigs.length) :
    ((save_index_bytes idx).drop
      (20 + 4 * idx.contigs.length + 4 * sumList (tileCountsOf idx) + 40 * n)).take 40
    = name40 ((idx.contigs[n]).name) := by
  have hb : save_index_bytes idx = (headerBytes idx ++ tcBlock idx ++ rcBlock idx) ++
      ((idx.contigs.map (fun c => name40 c.name)).flatten ++
        (fileBlock idx ++ rangeBlock idx)) := by
    rw [save_index_bytes, nameBlock]
    simp only [List.append_assoc]
  have hpos : 20 + 4 * idx.contigs.length + 4 * sumList (tileCountsOf idx) + 40 * n
      = (headerBytes idx ++ tcBlock idx ++ rcBlock idx).length + 40 * n := by
    simp only [List.length_append, length_headerBytes, length_tcBlock, length_rcBlock]
  rw [hb, hpos, List.drop_append,
    flatten_map_drop (fun c => name40 c.name) 40 (fun c => length_name40 c.name)
      idx.contigs n _ hn,
    show (40 : Nat) = (name40 ((idx.contigs[n]).name)).length from (length_name40 _).symm,
    List.take_left]

theorem load_contig_lookup (idx : ContigIndex) (hC : idx.contigs.length < U32M)
    (htc : ∀ x ∈ tileCountsOf idx, x < U32M) :
    (init_search (save_index_bytes idx)).contig_lookup =
      (List.range idx.contigs.length).map
        (fun n => (takeToNull (name40 ((idx.contigs.getD n default).name)), n)) := by
  rw [init_search_contig_lookup, readCC idx hC, readTCS idx htc]
  apply List.map_congr_left
  intro n hn
  have hn2 : n < idx.contigs.length := List.mem_range.mp hn
  rw [nameAt idx n hn2, List.getD_eq_getElem _ _ hn2]

theorem decRangeAt_load (bytes : List Nat) (p : Nat) (r : ContigRange) (rest : List Nat)
    (hdrop : bytes.drop p = encRange r ++ rest)
    (hb : r.bed_idx < U32M) (hs : r.start_bp < U64M) (he : r.end_bp < U64M)
    (hq : r.bgzf_pos < U64M) :
    decRangeAt bytes p = r := by
  have hdrop4 : bytes.drop (p + 4) =
      encU64 r.start_bp ++ (encU64 r.end_bp ++ (encU64 r.bgzf_pos ++ rest)) := by
    rw [← List.drop_drop 4 p bytes, hdrop, encRange]
    simp only [List.append_assoc]
    rw [show (4 : Nat) = (encU32 r.bed_idx).length from rfl, List.drop_left]
  have hdrop12 : bytes.drop (p + 12) = encU64 r.end_bp ++ (encU64 r.bgzf_pos ++ rest) := by
    rw [show p + 12 = p + 4 + 8 by ring, ← List.drop_drop 8 (p + 4) bytes, hdrop4,
      show (8 : Nat) = (encU64 r.start_bp).length from rfl, List.drop_left]
  have hdrop20 : bytes.drop (p + 20) = encU64 r.bgzf_pos ++ rest := by
    rw [show p + 20 = p + 12 + 8 by ring, ← List.drop_drop 8 (p + 12) bytes, hdrop12,
      show (8 : Nat) = (encU64 r.end_bp).length from rfl, List.drop_left]
  have h0 : readU32At bytes p = r.bed_idx := by
    rw [readU32At, hdrop, encRange]
    simp only [List.append_assoc]
    rw [decU32_encU32_append]
    exact Nat.mod_eq_of_lt hb
  have h1 : readU64At bytes (p + 4) = r.start_bp := by
    rw [readU64At, hdrop4, decU64_encU64_append]
    exact Nat.mod_eq_of_lt hs
  have h2 : readU64At bytes (p + 12) = r.end_bp := by
    rw [readU64At, hdrop12, decU64_encU64_append]
    exact Nat.mod_eq_of_lt he
  have h3 : readU64At bytes (p + 20) = r.bgzf_pos := by
    rw [readU64At, hdrop20, decU64_encU64_append]
    exact Nat.mod_eq_of_lt hq
  rw [decRangeAt, h0, h1, h2, h3]

theorem tileOf_mem_bounded (idx : ContigIndex) (hbnd : rangesBounded idx)
    (c t : Nat) (hc : c < idx.contigs.length) (r : ContigRange)
    (hr : r ∈ tileOf idx c t) :
    r.bed_idx < U32M ∧ r.start_bp < U64M ∧ r.end_bp < U64M ∧ r.bgzf_pos < U64M := by
  apply hbnd (idx.contigs[c]) (List.getElem_mem hc) t
  rw [tileOf, List.getD_eq_getElem _ _ hc] at hr
  exact hr

theorem read_tile_load (idx : ContigIndex)
    (hC : idx.contigs.length < U32M) (hF : idx.bgz_files.length < U32M)
    (htc : ∀ x ∈ tileCountsOf idx, x < U32M)
    (hrc : ∀ l ∈ rangeCountsOf idx, ∀ x ∈ l, x < U32M)
    (hbnd : rangesBounded idx)
    (hfit : (save_index_bytes idx).length < U32M)
    (c t : Nat) (hc : c < idx.contigs.length)
    (ht : t < (idx.contigs[c]).contig_tiles.length) :
    read_tile (save_index_bytes idx) (init_search (save_index_bytes idx)) c t =
      sortByStart (tileOf idx c t) := by
  have hrcd : (rangeCountsOf idx).getD c [] = (idx.contigs[c]).contig_tiles.map List.length :=
    rc_getD_eq idx c hc
  have htlen : t < ((rangeCountsOf idx).getD c []).length := by
    rw [hrcd]; simpa using ht
  have hcount : (((init_search (save_index_bytes idx)).range_counts).getD c []).getD t 0 =
      (tileOf idx c t).length := by
    rw [load_range_counts idx hC htc hrc, hrcd,
      List.getD_eq_getElem _ _ (by simpa using ht), tileOf_getElem idx c t hc ht]
    simp
  have hoffmod := load_range_data_index idx hC hF htc hrc c t hc htlen
  have hle := builderTileOffset_le idx c t hc
  have hoff : (((init_search (save_index_bytes idx)).range_data_index).getD c []).getD t 0 =
      builderTileOffset idx c t := by
    rw [hoffmod]
    exact Nat.mod_eq_of_lt (lt_of_le_of_lt hle hfit)
  obtain ⟨rest, hdrop⟩ := save_drop_at_tile idx c t hc ht
  have hread : read_tile (save_index_bytes idx) (init_search (save_index_bytes idx)) c t
      = (List.range ((((init_search (save_index_bytes idx)).range_counts).getD c []).getD t 0)).map
          (fun i => decRangeAt (save_index_bytes idx)
            ((((init_search (save_index_bytes idx)).range_data_index).getD c []).getD t 0
              + 28 * i)) := rfl
  rw [hread, hcount, hoff]
  apply List.ext_getElem
  · simp [length_sortByStart]
  intro i h1 h2
  simp only [List.getElem_map, List.getElem_range]
  have hi : i < (sortByStart (tileOf idx c t)).length := h2
  have hdropi : (save_index_bytes idx).drop (builderTileOffset idx c t + 28 * i) =
      encRange ((sortByStart (tileOf idx c t))[i]) ++
        ((((sortByStart (tileOf idx c t)).drop (i + 1)).map encRange).flatten ++ rest) := by
    rw [← List.drop_drop (28 * i) (builderTileOffset idx c t) (save_index_bytes idx), hdrop,
      encTile]
    exact flatten_map_drop encRange 28 length_encRange (sortByStart (tileOf idx c t)) i rest hi
  have hmem : (sortByStart (tileOf idx c t))[i] ∈ tileOf idx c t := by
    rw [← mem_sortByStart]
    exact List.getElem_mem hi
  obtain ⟨hb1, hb2, hb3, hb4⟩ := tileOf_mem_bounded idx hbnd c t hc _ hmem
  exact decRangeAt_load _ _ _ _ hdropi hb1 hb2 hb3 hb4

/-! ## Replication of a range across its overlapped tiles (build side) -/

theorem countPtr_append (b p : Nat) (t1 t2 : List ContigRange) :
    countPtr b p (t1 ++ t2) = countPtr b p t1 + countPtr b p t2 := by
  rw [countPtr, countPtr, countPtr, List.filter_append, List.length_append]

theorem countPtr_single (b p : Nat) (r : ContigRange)
    (hb : r.bed_idx = b) (hp : r.bgzf_pos = p) : countPtr b p [r] = 1 := by
  rw [countPtr]
  rw [List.filter_cons_of_pos (by simp [hb, hp])]
  rfl

theorem getD_replicate_nil (k m : Nat) :
    (List.replicate k ([] : List ContigRange)).getD m [] = [] := by
  induction k generalizing m with
  | zero => rfl
  | succ k ih =>
    cases m with
    | zero => rfl
    | succ m =>
      rw [List.replicate_succ, List.getD_cons_succ]
      exact ih m

theorem getD_extendTiles (tiles : List (List ContigRange)) (n t : Nat) :
    (extendTiles tiles n).getD t [] = tiles.getD t [] := by
  rw [extendTiles]
  by_cases h : t < tiles.length
  · rw [List.getD_append _ _ _ _ h]
  · rw [List.getD_append_right _ _ _ _ (by omega), getD_replicate_nil]
    have : tiles.getD t [] = [] := by
      rw [List.getD_eq_getElem?_getD, List.getElem?_eq_none (by omega)]
      rfl
    rw [this]

theorem length_extendTiles (tiles : List (List ContigRange)) (n : Nat) :
    (extendTiles tiles n).length = max tiles.length n := by
  rw [extendTiles, List.length_append, List.length_replicate]
  omega

theorem getD_pushTileRange (r : ContigRange) (first last : Nat) :
    ∀ (tiles : List (List ContigRange)) (i0 t : Nat),
    (pushTileRange r first last i0 tiles).getD t [] =
      if t < tiles.length ∧ first ≤ i0 + t ∧ i0 + t ≤ last
      then tiles.getD t [] ++ [r] else tiles.getD t [] := by
  intro tiles
  induction tiles with
  | nil =>
    intro i0 t
    rw [if_neg (by simp)]
    rfl
  | cons x xs ih =>
    intro i0 t
    cases t with
    | zero =>
      simp only [pushTileRange, List.getD_cons_zero, Nat.add_zero, List.length_cons]
      by_cases h : first ≤ i0 ∧ i0 ≤ last
      · rw [if_pos h, if_pos ⟨by omega, h.1, h.2⟩]
      · rw [if_neg h, if_neg (by omega)]
    | succ t =>
      simp only [pushTileRange, List.getD_cons_succ, List.length_cons]
      rw [ih (i0 + 1) t]
      by_cases h : t < xs.length ∧ first ≤ i0 + 1 + t ∧ i0 + 1 + t ≤ last
      · rw [if_pos h, if_pos ⟨by omega, by omega, by omega⟩]
      · rw [if_neg h, if_neg (by omega)]

theorem addToContig_name (c : Contig) (first last : Nat) (r : ContigRange) :
    (addToContig c first last r).name = c.name := rfl

theorem addToContig_tile (c : Contig) (first last : Nat) (r : ContigRange) (t : Nat) :
    (addToContig c first last r).contig_tiles.getD t [] =
      if t ≤ last ∧ first ≤ t then c.contig_tiles.getD t [] ++ [r]
      else c.contig_tiles.getD t [] := by
  rw [addToContig]
  show (pushTileRange r first last 0 (extendTiles c.contig_tiles (last + 1))).getD t [] = _
  rw [getD_pushTileRange r first last _ 0 t, length_extendTiles, getD_extendTiles]
  by_cases h : t ≤ last ∧ first ≤ t
  · rw [if_pos (by omega), if_pos h]
  · rw [if_neg (by omega), if_neg h]

theorem getD_updAt_ne {α : Type u} [Inhabited α] (i : Nat) (f : α → α) :
    ∀ (l : List α) (j : Nat), i ≠ j → (updAt i f l).getD j default = l.getD j default := by
  induction i with
  | zero =>
    intro l j h
    cases l with
    | nil => rfl
    | cons x xs =>
      cases j with
      | zero => omega
      | succ j => rfl
  | succ i ih =>
    intro l j h
    cases l with
    | nil => rfl
    | cons x xs =>
      cases j with
      | zero => rfl
      | succ j => simpa [updAt] using ih xs j (by omega)

theorem getD_updAt_self {α : Type u} [Inhabited α] (i : Nat) (f : α → α) :
    ∀ (l : List α), i < l.length → (updAt i f l).getD i default = f (l.getD i default) := by
  induction i with
  | zero =>
    intro l h
    cases l with
    | nil => simp at h
    | cons x xs => rfl
  | succ i ih =>
    intro l h
    cases l with
    | nil => simp at h
    | cons x xs => simpa [updAt] using ih xs (by simpa using h)

theorem map_name_updAt (i : Nat) (f : Contig → Contig)
    (hf : ∀ c, (f c).name = c.name) :
    ∀ l : List Contig, (updAt i f l).map (fun c => c.name) = l.map (fun c => c.name) := by
  induction i with
  | zero =>
    intro l
    cases l with
    | nil => rfl
    | cons x xs => simp [updAt, hf x]
  | succ i ih =>
    intro l
    cases l with
    | nil => rfl
    | cons x xs => simp [updAt, ih xs]

theorem findContigIdx_congr (l1 l2 : List Contig)
    (h : l1.map (fun c => c.name) = l2.map (fun c => c.name)) (nm : List Nat) :
    findContigIdx l1 nm = findContigIdx l2 nm := by
  induction l1 generalizing l2 with
  | nil =>
    cases l2 with
    | nil => rfl
    | cons y ys => simp at h
  | cons x xs ih =>
    cases l2 with
    | nil => simp at h
    | cons y ys =>
      simp only [List.map_cons, List.cons.injEq] at h
      rw [findContigIdx, findContigIdx, h.1, ih ys h.2]

theorem findContigIdx_some (cs : List Contig) (nm : List Nat) :
    ∀ i : Nat, findContigIdx cs nm = some i →
      i < cs.length ∧ (cs.getD i default).name = nm := by
  induction cs with
  | nil => intro i h; simp [findContigIdx] at h
  | cons c rest ih =>
    intro i h
    rw [findContigIdx] at h
    by_cases hc : c.name = nm
    · rw [if_pos (by simpa using hc)] at h
      cases h
      exact ⟨by simp, hc⟩
    · rw [if_neg (by simpa using hc)] at h
      cases hi : findContigIdx rest nm with
      | none => rw [hi] at h; simp at h
      | some j =>
        rw [hi] at h
        simp at h
        obtain ⟨h1, h2⟩ := ih j hi
        subst h
        exact ⟨by simpa using h1, by simpa using h2⟩

theorem findContigIdx_none (cs : List Contig) (nm : List Nat)
    (h : findContigIdx cs nm = none) : ∀ c ∈ cs, c.name ≠ nm := by
  induction cs with
  | nil => intro c hc; simp at hc
  | cons c rest ih =>
    intro x hx
    rw [findContigIdx] at h
    by_cases hc : c.name = nm
    · rw [if_pos (by simpa using hc)] at h; simp at h
    · rw [if_neg (by simpa using hc)] at h
      rcases List.mem_cons.mp hx with rfl | hx2
      · exact hc
      · exact ih (by cases hh : findContigIdx rest nm with
          | none => rfl
          | some j => rw [hh] at h; simp at h) x hx2

theorem findContigIdx_append_none (cs : List Contig) (nm : List Nat) (c : Contig)
    (h : findContigIdx cs nm = none) (hc : c.name = nm) :
    findContigIdx (cs ++ [c]) nm = some cs.length := by
  induction cs with
  | nil => simp [findContigIdx, hc]
  | cons x xs ih =>
    rw [findContigIdx] at h
    by_cases hx : x.name = nm
    · rw [if_pos (by simpa using hx)] at h; simp at h
    · rw [if_neg (by simpa using hx)] at h
      have h2 : findContigIdx xs nm = none := by
        cases hh : findContigIdx xs nm with
        | none => rfl
        | some j => rw [hh] at h; simp at h
      rw [List.cons_append, findContigIdx, if_neg (by simpa using hx), ih h2]
      simp

theorem tileOfNamed_add (idx : ContigIndex) (nm : List Nat) (bed s e p t : Nat) :
    tileOfNamed (add_contig_range idx nm bed s e p) nm t =
      if t ≤ (e - 1) / idx.tile_size ∧ s / idx.tile_size ≤ t
      then tileOfNamed idx nm t ++ [⟨bed, s, e, p⟩]
      else tileOfNamed idx nm t := by
  cases hfind : findContigIdx idx.contigs nm with
  | some cIdx =>
    obtain ⟨hlt, hname⟩ := findContigIdx_some idx.contigs nm cIdx hfind
    have hadd : (add_contig_range idx nm bed s e p).contigs =
        updAt cIdx (fun c => addToContig c (s / idx.tile_size)
          ((e - 1) / idx.tile_size) ⟨bed, s, e, p⟩) idx.contigs := by
      rw [add_contig_range, hfind]
    have hfind2 : findContigIdx (add_contig_range idx nm bed s e p).contigs nm = some cIdx := by
      rw [hadd, findContigIdx_congr _ idx.contigs
        (map_name_updAt _ _ (fun c => addToContig_name _ _ _ _) idx.contigs)]
      exact hfind
    simp only [tileOfNamed, hfind2, hfind]
    rw [tileOf, tileOf, hadd, getD_updAt_self cIdx _ idx.contigs hlt, addToContig_tile]
  | none =>
    have hadd : (add_contig_range idx nm bed s e p).contigs =
        idx.contigs ++ [addToContig ⟨nm, []⟩ (s / idx.tile_size)
          ((e - 1) / idx.tile_size) ⟨bed, s, e, p⟩] := by
      rw [add_contig_range, hfind]
    have hfind2 : findContigIdx (add_contig_range idx nm bed s e p).contigs nm =
        some idx.contigs.length := by
      rw [hadd]
      exact findContigIdx_append_none _ _ _ hfind rfl
    simp only [tileOfNamed, hfind2, hfind]
    rw [tileOf, hadd]
    rw [List.getD_append_right _ _ _ _ (le_refl _), Nat.sub_self, List.getD_cons_zero,
      addToContig_tile]
    rfl

/-! ## Claim theorems: build replication, filter panics, concrete scenarios -/

/-- **C7.** For every record with contig name `nm`, bounds `[s, e)` with `e ≥ 1` and
storage pointer `(bed, p)` (owning data file and virtual position) ingested during
build, after the ingestion every tile `t ∈ [s / tile_size, (e − 1) / tile_size]` of
that contig contains exactly one range carrying that pointer, no tile of the contig
outside the interval gained such a range, and every other contig is unchanged.
The freshness hypothesis — no range of the contig carried the pointer before — holds
throughout `build_idx` because the bgzf virtual position strictly increases from one
record line of a data file to the next. -/
theorem add_contig_range_replication (idx : ContigIndex) (nm : List Nat)
    (bed s e p : Nat) (he : 1 ≤ e)
    (hfresh : ∀ t : Nat, countPtr bed p (tileOfNamed idx nm t) = 0) :
    (∀ t : Nat, s / idx.tile_size ≤ t → t ≤ (e - 1) / idx.tile_size →
      countPtr bed p (tileOfNamed (add_contig_range idx nm bed s e p) nm t) = 1) ∧
    (∀ t : Nat, ¬ (s / idx.tile_size ≤ t ∧ t ≤ (e - 1) / idx.tile_size) →
      countPtr bed p (tileOfNamed (add_contig_range idx nm bed s e p) nm t) = 0) ∧
    (∀ j : Nat, j < idx.contigs.length → (idx.contigs.getD j default).name ≠ nm →
      (add_contig_range idx nm bed s e p).contigs.getD j default =
        idx.contigs.getD j default) := by
  refine ⟨?_, ?_, ?_⟩
  · intro t h1 h2
    rw [tileOfNamed_add, if_pos ⟨h2, h1⟩, countPtr_append, hfresh t,
      countPtr_single bed p _ rfl rfl]
  · intro t h
    rw [tileOfNamed_add, if_neg (by tauto), hfresh t]
  · intro j hj hname
    cases hfind : findContigIdx idx.contigs nm with
    | some cIdx =>
      obtain ⟨hlt, hnm⟩ := findContigIdx_some idx.contigs nm cIdx hfind
      have hadd : (add_contig_range idx nm bed s e p).contigs =
          updAt cIdx (fun c => addToContig c (s / idx.tile_size)
            ((e - 1) / idx.tile_size) ⟨bed, s, e, p⟩) idx.contigs := by
        rw [add_contig_range, hfind]
      rw [hadd]
      apply getD_updAt_ne
      intro hEq
      rw [hEq] at hnm
      exact hname hnm
    | none =>
      have hadd : (add_contig_range idx nm bed s e p).contigs =
          idx.contigs ++ [addToContig ⟨nm, []⟩ (s / idx.tile_size)
            ((e - 1) / idx.tile_size) ⟨bed, s, e, p⟩] := by
        rw [add_contig_range, hfind]
      rw [hadd, List.getD_append _ _ _ _ hj]

/-- Witness for C7 at a concrete input: the record `[15000, 20000)` on an empty index
lands exactly once in tiles 0 and 1 and nowhere else. -/
theorem add_contig_range_replication_witness :
    (1 ≤ 20000) ∧
    countPtr 0 7 (tileOfNamed (add_contig_range emptyIndex chr1 0 15000 20000 7) chr1 0) = 1 ∧
    countPtr 0 7 (tileOfNamed (add_contig_range emptyIndex chr1 0 15000 20000 7) chr1 1) = 1 ∧
    countPtr 0 7 (tileOfNamed (add_contig_range emptyIndex chr1 0 15000 20000 7) chr1 2) = 0 :=
  ⟨by decide,
   (add_contig_range_replication emptyIndex chr1 0 15000 20000 7 (by decide)
      (fun t => rfl)).1 0 (by decide) (by decide),
   (add_contig_range_replication emptyIndex chr1 0 15000 20000 7 (by decide)
      (fun t => rfl)).1 1 (by decide) (by decide),
   (add_contig_range_replication emptyIndex chr1 0 15000 20000 7 (by decide)
      (fun t => rfl)).2.1 2 (by decide)⟩

/-- **C9.** When the family filter is active, `filter_line` panics (`none`) on any line
with fewer than 4 whitespace-separated fields, and when the NRPH filter is active it
panics on a line with no fields at all, instead of dropping the record (`some false`)
or returning an error value. -/
theorem filter_line_panics (line : List Nat) (fam : List Nat) (famOpt : Option (List Nat))
    (nrph : Bool) :
    ((splitWs line).length < 4 → filter_line line (some fam) nrph = none) ∧
    (splitWs line = [] → filter_line line famOpt true = none) := by
  constructor
  · intro h
    have hget : (splitWs line).get? 3 = none := by
      rw [List.get?_eq_none]
      omega
    rw [filter_line]
    simp only [hget]
  · intro h
    cases famOpt with
    | none =>
      rw [filter_line]
      simp only [h, nrphCheck, List.getLast?_nil, if_true]
    | some f =>
      rw [filter_line]
      simp only [h]
      rfl

/-- Witness for C9: a 3-field line panics under the family filter, and an empty line
panics under the NRPH filter. -/
theorem filter_line_panics_witness :
    (splitWs [97, 32, 98]).length < 4 ∧
    filter_line [97, 32, 98] (some [97]) false = none ∧
    splitWs [] = [] ∧
    filter_line [] none true = none :=
  ⟨by decide,
   (filter_line_panics [97, 32, 98] [97] none false).1 (by decide),
   by decide,
   (filter_line_panics [] [97] none true).2 (by decide)⟩

/-- **C4.** With tile size 16384 and an index built, persisted and loaded from the two
records `[100, 200)` and `[15000, 20000)` on `chr1`, the query `chr1, [16500, 17000)`
returns exactly the line of the `[15000, 20000)` record (the line stored at virtual
position 7), recovered from its replica in tile 1 although its `start_bp` 15000 lies
below `q_start`. -/
theorem s3_query_returns_spanning_record :
    searchBuilt [⟨chr1, 0, 100, 200, 3⟩, ⟨chr1, 0, 15000, 20000, 7⟩] oneFile lineEnv
      chr1 16500 17000 none false = .ok [lineEnv 0 7] ∧ lineEnv 0 7 = [1007] := by
  constructor
  · decide
  · decide

/-- **C3 (counterexample).** At the S3 input the first tile of the query
`chr1, [16500, 17000)` is tile 1, the loaded tile 1 holds the range starting at
15000 < 16500, and the query emits that range's line — so the backward walk does not
stop at the first range with `start_bp < q_start`, and a range of the first tile with
`start_bp < q_start` is emitted. -/
theorem first_tile_emits_below_qstart :
    searchBuilt [⟨chr1, 0, 100, 200, 3⟩, ⟨chr1, 0, 15000, 20000, 7⟩] oneFile lineEnv
      chr1 16500 17000 none false = .ok [lineEnv 0 7] ∧
    16500 / 16384 = 1 ∧
    (⟨0, 15000, 20000, 7⟩ : ContigRange) ∈
      read_tile
        (save_index_bytes (buildFrom
          [⟨chr1, 0, 100, 200, 3⟩, ⟨chr1, 0, 15000, 20000, 7⟩] oneFile))
        (init_search (save_index_bytes (buildFrom
          [⟨chr1, 0, 100, 200, 3⟩, ⟨chr1, 0, 15000, 20000, 7⟩] oneFile))) 0 1 ∧
    15000 < 16500 := by
  refine ⟨by decide, by decide, by decide, by decide⟩

/-- **C1 (evaluation at the failing input).** One record `[20000, 20100)` on `chr1`
lives in tile 1 of the persisted index (tile 0 exists but is empty); the full-range
query `chr1, [1, 32768)` — `q_start > 0`, `q_end` covering both tiles — returns the
empty list instead of that record, because the whole multi-tile scan is skipped when
the first tile holds no ranges. -/
theorem search_empty_first_tile_returns_nothing :
    searchBuilt [⟨chr1, 0, 20000, 20100, 7⟩] oneFile lineEnv chr1 1 32768 none false
      = .ok [] ∧
    read_tile
      (save_index_bytes (buildFrom [⟨chr1, 0, 20000, 20100, 7⟩] oneFile))
      (init_search (save_index_bytes (buildFrom [⟨chr1, 0, 20000, 20100, 7⟩] oneFile))) 0 1
      = [⟨0, 20000, 20100, 7⟩] ∧
    (init_search (save_index_bytes
      (buildFrom [⟨chr1, 0, 20000, 20100, 7⟩] oneFile))).tile_counts = [2] ∧
    (32768 - 1) / 16384 = 1 := by
  refine ⟨by decide, by decide, by decide, by decide⟩

/-- **C2 (evaluation at the failing input).** For an index of `chr1` with exactly one
tile, the query starting at 16384 has `first_tile = 1`, equal to the tile count (one
past the last indexed tile index 0); the code passes the `start_tile > tile_counts`
check and then panics on the out-of-bounds `range_counts` index instead of failing
with the `OutOfRange` error.  A start two tiles out (`first_tile = 2 > 1`) does take
the `OutOfRange` path. -/
theorem search_boundary_tile_panics :
    searchBuilt [⟨chr1, 0, 100, 200, 3⟩] oneFile lineEnv chr1 16384 16385 none false
      = .error .panicked ∧
    (init_search (save_index_bytes
      (buildFrom [⟨chr1, 0, 100, 200, 3⟩] oneFile))).tile_counts = [1] ∧
    16384 / 16384 = 1 ∧
    searchBuilt [⟨chr1, 0, 100, 200, 3⟩] oneFile lineEnv chr1 32768 32769 none false
      = .error .outOfRange := by
  refine ⟨by decide, by decide, by decide, by decide⟩

/-- **C5 (evaluation at the failing input).** Querying a contig that is not in the
loaded lookup makes `search` panic (the `unwrap` on the failed lookup) instead of
returning an `UnknownContig` error value to the caller. -/
theorem search_unknown_contig_panics :
    searchBuilt [⟨chr1, 0, 100, 200, 3⟩] oneFile lineEnv chr2 100 200 none false
      = .error .panicked ∧
    lookupName (init_search (save_index_bytes
      (buildFrom [⟨chr1, 0, 100, 200, 3⟩] oneFile))).contig_lookup chr2 = none := by
  refine ⟨by decide, by decide⟩

/-! ## The first-tile pass: binary search plus backward walk -/

theorem pairwise_getD_mono (v : List ContigRange)
    (hsort : v.Pairwise (fun a b => a.start_bp ≤ b.start_bp))
    (i j : Nat) (hij : i ≤ j) (hj : j < v.length) :
    (v.getD i default).start_bp ≤ (v.getD j default).start_bp := by
  rcases Nat.eq_or_lt_of_le hij with rfl | hlt
  · exact le_refl _
  · have h := List.pairwise_iff_getElem.mp hsort i j (lt_trans hlt hj) hj hlt
    rw [List.getD_eq_getElem _ _ (lt_trans hlt hj), List.getD_eq_getElem _ _ hj]
    exact h

theorem bsearchGo_spec (v : List ContigRange) (qe : Nat)
    (hsort : v.Pairwise (fun a b => a.start_bp ≤ b.start_bp)) :
    ∀ (fuel l r : Nat), r ≤ v.length → l ≤ r → r - l ≤ fuel →
    (∀ i, i < l → (v.getD i default).start_bp < qe) →
    (∀ i, r ≤ i → i < v.length → qe ≤ (v.getD i default).start_bp) →
    (∀ i, i < bsearchGo v qe fuel l r → (v.getD i default).start_bp < qe) ∧
    (∀ i, bsearchGo v qe fuel l r ≤ i → i < v.length → qe ≤ (v.getD i default).start_bp) ∧
    bsearchGo v qe fuel l r ≤ v.length := by
  intro fuel
  induction fuel with
  | zero =>
    intro l r hr hlr hfuel hL hR
    have hlr2 : l = r := by omega
    subst hlr2
    exact ⟨hL, hR, show l ≤ v.length by omega⟩
  | succ fuel ih =>
    intro l r hr hlr hfuel hL hR
    rw [bsearchGo]
    by_cases h : l < r
    · rw [if_pos h]
      by_cases h2 : (v.getD ((l + r) / 2) default).start_bp < qe
      · rw [if_pos h2]
        apply ih ((l + r) / 2 + 1) r hr (by omega) (by omega)
        · intro i hi
          by_cases hc : i < l
          · exact hL i hc
          · have hile : i ≤ (l + r) / 2 := by omega
            have hmlt : (l + r) / 2 < v.length := by omega
            exact lt_of_le_of_lt (pairwise_getD_mono v hsort i _ hile hmlt) h2
        · exact hR
      · rw [if_neg h2]
        apply ih l ((l + r) / 2) (by omega) (by omega) (by omega) hL
        intro i hi1 hi2
        exact le_trans (le_of_not_lt h2) (pairwise_getD_mono v hsort _ i hi1 hi2)
    · rw [if_neg h]
      have hlr2 : l = r := by omega
      subst hlr2
      exact ⟨hL, hR, by omega⟩

theorem backwardCollect_all (v : List ContigRange) (qe : Nat) :
    ∀ n : Nat, n ≤ v.length → (∀ i, i < n → (v.getD i default).start_bp < qe) →
    backwardCollect v qe n = (v.take n).reverse := by
  intro n
  induction n with
  | zero => intro _ _; rfl
  | succ n ih =>
    intro hn hlt
    have hnv : n < v.length := by omega
    have htake : v.take (n + 1) = v.take n ++ [v[n]] := by
      rw [List.take_succ, List.getElem?_eq_getElem hnv, Option.toList_some]
    rw [backwardCollect, if_pos (hlt n (by omega)), ih (by omega) (fun i h => hlt i (by omega)),
      htake, List.reverse_append, List.getD_eq_getElem _ _ hnv]
    simp

theorem takeWhile_eq_take_of_bounds (p : ContigRange → Bool) :
    ∀ (v : List ContigRange) (k : Nat), k ≤ v.length →
    (∀ i, i < k → p (v.getD i default) = true) →
    (∀ i, k ≤ i → i < v.length → p (v.getD i default) = false) →
    v.takeWhile p = v.take k := by
  intro v
  induction v with
  | nil =>
    intro k hk _ _
    have : k = 0 := by simpa using hk
    subst this
    rfl
  | cons x xs ih =>
    intro k hk hin hout
    cases k with
    | zero =>
      have h0 := hout 0 (by omega) (by simp)
      rw [List.getD_cons_zero] at h0
      rw [List.take_zero, List.takeWhile_cons_of_neg (by simp [h0])]
    | succ k =>
      have hx := hin 0 (by omega)
      rw [List.getD_cons_zero] at hx
      rw [List.takeWhile_cons_of_pos hx, List.take_succ_cons]
      rw [ih k (by simpa using hk)
        (fun i h => by
          have := hin (i + 1) (by omega)
          rwa [List.getD_cons_succ] at this)
        (fun i h1 h2 => by
          have := hout (i + 1) (by omega) (by simpa using h2)
          rwa [List.getD_cons_succ] at this)]

theorem firstTileRanges_takeWhile (v : List ContigRange) (qe : Nat)
    (hsort : v.Pairwise (fun a b => a.start_bp ≤ b.start_bp)) :
    firstTileRanges v v.length qe = v.takeWhile (fun r => r.start_bp < qe) := by
  obtain ⟨hA, hB, hC⟩ := bsearchGo_spec v qe hsort (v.length - 0) 0 v.length
    (le_refl _) (by omega) (by omega)
    (fun i h => absurd h (by omega))
    (fun i h1 h2 => absurd (lt_of_le_of_lt h1 h2) (lt_irrefl _))
  rw [firstTileRanges, bsearchLoop, backwardCollect_all v qe _ hC hA, List.reverse_reverse]
  refine (takeWhile_eq_take_of_bounds _ v _ hC ?_ ?_).symm
  · intro i h
    simpa using hA i h
  · intro i h1 h2
    simp only [decide_eq_false_iff_not, not_lt]
    exact hB i h1 h2

/-! ## Name truncation and the loaded lookup -/

theorem name40_long (nm : List Nat) (h : 40 ≤ nm.length) : name40 nm = nm.take 40 := by
  rw [name40, padTrunc, show 40 - nm.length = 0 by omega, List.replicate_zero,
    List.append_nil]

theorem takeToNull_all (l : List Nat) (h : ∀ b ∈ l, b ≠ 0) : takeToNull l = l := by
  induction l with
  | nil => rfl
  | cons x xs ih =>
    rw [takeToNull, List.takeWhile_cons_of_pos (by simp [h x (by simp)])]
    rw [takeToNull] at ih
    rw [ih (fun b hb => h b (by simp [hb]))]

theorem length_takeToNull_le (l : List Nat) : (takeToNull l).length ≤ l.length := by
  induction l with
  | nil => simp [takeToNull]
  | cons x xs ih =>
    rw [takeToNull, List.takeWhile_cons]
    by_cases h : x ≠ 0
    · rw [if_pos (by simpa using h)]
      rw [takeToNull] at ih
      simpa using ih
    · rw [if_neg (by simpa using h)]
      simp

theorem lookupName_snoc (l : List (List Nat × Nat)) (x : List Nat × Nat) (k : List Nat) :
    lookupName (l ++ [x]) k = if x.1 == k then some x.2 else lookupName l k := by
  rw [lookupName, List.reverse_append, List.reverse_singleton, List.singleton_append]
  by_cases h : x.1 == k
  · rw [List.find?_cons_of_pos l.reverse
      (show (fun p : List Nat × Nat => p.1 == k) x = true from h), if_pos h]
    rfl
  · rw [List.find?_cons_of_neg l.reverse
      (show ¬ (fun p : List Nat × Nat => p.1 == k) x = true from h), if_neg h]
    rfl

theorem lookupName_map_range (g : Nat → List Nat) :
    ∀ (n c : Nat), c < n → (∀ j, j < n → j ≠ c → g j ≠ g c) →
    lookupName ((List.range n).map (fun i => (g i, i))) (g c) = some c := by
  intro n
  induction n with
  | zero => intro c hc; omega
  | succ n ih =>
    intro c hc huniq
    rw [List.range_succ, List.map_append, List.map_singleton, lookupName_snoc]
    by_cases hcn : c = n
    · subst hcn
      rw [if_pos (by simp)]
    · have hne : g n ≠ g c := huniq n (by omega) (by omega)
      rw [if_neg (by simpa using hne)]
      exact ih c (by omega) (fun j hj hne2 => huniq j (by omega) hne2)

theorem lookupName_map_range_none (g : Nat → List Nat) (k : List Nat) :
    ∀ n : Nat, (∀ j, j < n → g j ≠ k) →
    lookupName ((List.range n).map (fun i => (g i, i))) k = none := by
  intro n
  induction n with
  | zero => intro _; rfl
  | succ n ih =>
    intro h
    rw [List.range_succ, List.map_append, List.map_singleton, lookupName_snoc]
    rw [if_neg (by simpa using h n (by omega))]
    exact ih (fun j hj => h j (by omega))

/-- **C10.** For every contig whose persisted name exceeds 40 bytes (and, like every
real contig name, has no zero byte among its first 40), the builder silently writes
only the first 40 bytes of the name into the name blob; after loading, the contig
lookup maps that 40-byte truncation — not the original name — to the contig's index
(provided no other contig loads to the same truncated key, in which case the Rust
`HashMap` would keep only the later contig), so a query using the original full name
does not resolve the contig. -/
theorem contig_name_truncated (idx : ContigIndex)
    (hfit : (save_index_bytes idx).length < U32M)
    (c : Nat) (hc : c < idx.contigs.length)
    (hlong : 40 < (idx.contigs[c]).name.length)
    (hz : ∀ b ∈ (idx.contigs[c]).name.take 40, b ≠ 0)
    (hdist : ∀ j, j < idx.contigs.length → j ≠ c →
      takeToNull (name40 ((idx.contigs.getD j default).name)) ≠
        (idx.contigs[c]).name.take 40) :
    ((save_index_bytes idx).drop
        (20 + 4 * idx.contigs.length + 4 * sumList (tileCountsOf idx) + 40 * c)).take 40
      = (idx.contigs[c]).name.take 40 ∧
    lookupName (init_search (save_index_bytes idx)).contig_lookup
      ((idx.contigs[c]).name.take 40) = some c ∧
    lookupName (init_search (save_index_bytes idx)).contig_lookup
      ((idx.contigs[c]).name) = none := by
  obtain ⟨hC, _hF, htc, _hrc⟩ := bounds_from_hlen idx hfit
  have hn40 : name40 ((idx.contigs[c]).name) = (idx.contigs[c]).name.take 40 :=
    name40_long _ (by omega)
  have hkey : takeToNull (name40 ((idx.contigs.getD c default).name)) =
      (idx.contigs[c]).name.take 40 := by
    rw [List.getD_eq_getElem _ _ hc, hn40]
    exact takeToNull_all _ hz
  refine ⟨?_, ?_, ?_⟩
  · rw [nameAt idx c hc, hn40]
  · rw [load_contig_lookup idx hC htc, ← hkey]
    exact lookupName_map_range
      (fun i => takeToNull (name40 ((idx.contigs.getD i default).name)))
      idx.contigs.length c hc
      (fun j hj hne => by
        show takeToNull (name40 ((idx.contigs.getD j default).name)) ≠
          takeToNull (name40 ((idx.contigs.getD c default).name))
        rw [hkey]
        exact hdist j hj hne)
  · rw [load_contig_lookup idx hC htc]
    apply lookupName_map_range_none
    intro j hj
    intro hEq
    have h1 := length_takeToNull_le (name40 ((idx.contigs.getD j default).name))
    rw [length_name40, hEq] at h1
    omega

/-- Witness for C10: a single contig whose 41-byte name is truncated to 40 bytes by
persist-and-load; the truncated key resolves, the full name does not. -/
theorem contig_name_truncated_witness :
    lookupName (init_search (save_index_bytes
        (buildFrom [⟨List.replicate 41 97, 0, 100, 200, 3⟩] oneFile))).contig_lookup
      ((List.replicate 41 97).take 40) = some 0 ∧
    lookupName (init_search (save_index_bytes
        (buildFrom [⟨List.replicate 41 97, 0, 100, 200, 3⟩] oneFile))).contig_lookup
      (List.replicate 41 97) = none := by
  have h := contig_name_truncated
    (buildFrom [⟨List.replicate 41 97, 0, 100, 200, 3⟩] oneFile)
    (by decide) 0 (by decide) (by decide) (by decide)
    (fun j hj hne => by
      have hlen : (buildFrom [⟨List.replicate 41 97, 0, 100, 200, 3⟩]
          oneFile).contigs.length = 1 := by rfl
      exact absurd (by omega) hne)
  exact ⟨h.2.1, h.2.2⟩

/-- **C8.** For every index file written by the builder (small enough that every byte
offset fits the loader's `u32` arithmetic), the offset table computed by the loader
assigns to each tile `(c, t)` exactly the byte offset at which the builder wrote the
first byte of that tile's range array: the base `20 + F·56 + C·44 + S·4` plus 28
bytes for every range in tiles preceding `(c, t)` in contig-then-tile order — at that
offset the file indeed continues with the encoded range array of tile `(c, t)`. -/
theorem loader_offset_table_matches_builder (idx : ContigIndex)
    (hfit : (save_index_bytes idx).length < U32M)
    (c t : Nat) (hc : c < idx.contigs.length)
    (ht : t < (idx.contigs[c]).contig_tiles.length) :
    (((init_search (save_index_bytes idx)).range_data_index).getD c []).getD t 0 =
      builderTileOffset idx c t ∧
    ∃ rest : List Nat,
      (save_index_bytes idx).drop (builderTileOffset idx c t) =
        encTile (tileOf idx c t) ++ rest := by
  obtain ⟨hC, hF, htc, hrc⟩ := bounds_from_hlen idx hfit
  have htlen : t < ((rangeCountsOf idx).getD c []).length := by
    rw [rc_getD_eq idx c hc]
    simpa using ht
  constructor
  · rw [load_range_data_index idx hC hF htc hrc c t hc htlen]
    exact Nat.mod_eq_of_lt (lt_of_le_of_lt (builderTileOffset_le idx c t hc) hfit)
  · exact save_drop_at_tile idx c t hc ht

/-- Witness for C8 at the two-record index: the loader offset of tile `(0, 1)` is the
builder offset 184 = 20 + 56 + 44 + 8 + 28·2. -/
theorem loader_offset_table_matches_builder_witness :
    (((init_search (save_index_bytes (buildFrom
        [⟨chr1, 0, 100, 200, 3⟩, ⟨chr1, 0, 15000, 20000, 7⟩]
        oneFile))).range_data_index).getD 0 []).getD 1 0 =
      builderTileOffset (buildFrom
        [⟨chr1, 0, 100, 200, 3⟩, ⟨chr1, 0, 15000, 20000, 7⟩] oneFile) 0 1 ∧
    builderTileOffset (buildFrom
      [⟨chr1, 0, 100, 200, 3⟩, ⟨chr1, 0, 15000, 20000, 7⟩] oneFile) 0 1 = 184 :=
  ⟨(loader_offset_table_matches_builder
      (buildFrom [⟨chr1, 0, 100, 200, 3⟩, ⟨chr1, 0, 15000, 20000, 7⟩] oneFile)
      (by decide) 0 1 (by decide) (by decide)).1,
   by decide⟩

/-- **C3 (amended).** In the first-tile pass, after the binary search finds the least
index `k` with `start_bp ≥ q_end`, the backward walk over `k−1, k−2, …` collects
exactly the ranges at indices below `k` — those with `start_bp < q_end` — and never
consults `q_start`: on a start-sorted tile the pass emits precisely the maximal
prefix of ranges with `start_bp < q_end`, so ranges of the first tile with
`start_bp < q_start` (replicas of records from earlier tiles) are also emitted
whenever their `start_bp < q_end`. -/
theorem first_tile_pass_emits_prefix_below_qend (v : List ContigRange) (qe : Nat)
    (hsort : v.Pairwise (fun a b => a.start_bp ≤ b.start_bp)) :
    firstTileRanges v v.length qe = v.takeWhile (fun r => r.start_bp < qe) :=
  firstTileRanges_takeWhile v qe hsort

/-- Witness for the amended C3: the one-range tile of the S3 scenario. -/
theorem first_tile_pass_emits_prefix_below_qend_witness :
    ([⟨0, 15000, 20000, 7⟩] : List ContigRange).Pairwise
      (fun a b => a.start_bp ≤ b.start_bp) ∧
    firstTileRanges [⟨0, 15000, 20000, 7⟩]
        ([⟨0, 15000, 20000, 7⟩] : List ContigRange).length 17000 =
      ([⟨0, 15000, 20000, 7⟩] : List ContigRange).takeWhile
        (fun r => r.start_bp < 17000) :=
  ⟨by decide, first_tile_pass_emits_prefix_below_qend _ 17000 (by decide)⟩

/-! ## Invariants of the built index -/

theorem add_contig_range_tile_size (idx : ContigIndex) (nm : List Nat)
    (bed s e p : Nat) :
    (add_contig_range idx nm bed s e p).tile_size = idx.tile_size := by
  cases h : findContigIdx idx.contigs nm <;> simp [add_contig_range, h]

theorem fold_tile_size (records : List RecordIn) : ∀ idx0 : ContigIndex,
    (records.foldl (fun idx r =>
      add_contig_range idx r.contig r.bed_idx r.start_bp r.end_bp r.bgzf_pos)
      idx0).tile_size = idx0.tile_size := by
  induction records with
  | nil => intro idx0; rfl
  | cons rec rest ih =>
    intro idx0
    rw [List.foldl_cons, ih, add_contig_range_tile_size]

theorem buildFrom_tile_size (records : List RecordIn) (files : List BGZFile) :
    (buildFrom records files).tile_size = 16384 := by
  show (records.foldl (fun idx r =>
    add_contig_range idx r.contig r.bed_idx r.start_bp r.end_bp r.bgzf_pos)
    emptyIndex).tile_size = 16384
  rw [fold_tile_size]
  rfl

theorem mem_updAt {α : Type u} [Inhabited α] (i : Nat) (f : α → α) :
    ∀ (l : List α) (x : α), x ∈ updAt i f l →
      x ∈ l ∨ (i < l.length ∧ x = f (l.getD i default)) := by
  induction i with
  | zero =>
    intro l x hx
    cases l with
    | nil => simp [updAt] at hx
    | cons y ys =>
      rcases List.mem_cons.mp hx with rfl | h2
      · exact Or.inr ⟨by simp, rfl⟩
      · exact Or.inl (List.mem_cons_of_mem _ h2)
  | succ i ih =>
    intro l x hx
    cases l with
    | nil => simp [updAt] at hx
    | cons y ys =>
      rcases List.mem_cons.mp hx with rfl | h2
      · exact Or.inl (List.mem_cons_self _ _)
      · rcases ih ys x h2 with h3 | ⟨h3, h4⟩
        · exact Or.inl (List.mem_cons_of_mem _ h3)
        · exact Or.inr ⟨by simpa using h3, by simpa using h4⟩

theorem mem_tile_add (idx : ContigIndex) (nm : List Nat) (bed s e p : Nat)
    (c2 : Contig) (t : Nat) (r : ContigRange)
    (hc2 : c2 ∈ (add_contig_range idx nm bed s e p).contigs)
    (hr : r ∈ c2.contig_tiles.getD t []) :
    (∃ c1 ∈ idx.contigs, r ∈ c1.contig_tiles.getD t []) ∨
      (r = ⟨bed, s, e, p⟩ ∧ s / idx.tile_size ≤ t ∧ t ≤ (e - 1) / idx.tile_size) := by
  cases hfind : findContigIdx idx.contigs nm with
  | some cIdx =>
    have hadd : (add_contig_range idx nm bed s e p).contigs =
        updAt cIdx (fun c => addToContig c (s / idx.tile_size)
          ((e - 1) / idx.tile_size) ⟨bed, s, e, p⟩) idx.contigs := by
      rw [add_contig_range, hfind]
    rw [hadd] at hc2
    rcases mem_updAt cIdx _ idx.contigs c2 hc2 with hmem | ⟨hlt2, heq⟩
    · exact Or.inl ⟨c2, hmem, hr⟩
    · rw [heq, addToContig_tile] at hr
      by_cases hcond : t ≤ (e - 1) / idx.tile_size ∧ s / idx.tile_size ≤ t
      · rw [if_pos hcond] at hr
        rcases List.mem_append.mp hr with hr2 | hr2
        · refine Or.inl ⟨idx.contigs.getD cIdx default, ?_, hr2⟩
          rw [List.getD_eq_getElem _ _ hlt2]
          exact List.getElem_mem hlt2
        · rw [List.mem_singleton.mp hr2]
          exact Or.inr ⟨rfl, hcond.2, hcond.1⟩
      · rw [if_neg hcond] at hr
        refine Or.inl ⟨idx.contigs.getD cIdx default, ?_, hr⟩
        rw [List.getD_eq_getElem _ _ hlt2]
        exact List.getElem_mem hlt2
  | none =>
    have hadd : (add_contig_range idx nm bed s e p).contigs =
        idx.contigs ++ [addToContig ⟨nm, []⟩ (s / idx.tile_size)
          ((e - 1) / idx.tile_size) ⟨bed, s, e, p⟩] := by
      rw [add_contig_range, hfind]
    rw [hadd] at hc2
    rcases List.mem_append.mp hc2 with hmem | hmem
    · exact Or.inl ⟨c2, hmem, hr⟩
    · rw [List.mem_singleton.mp hmem, addToContig_tile] at hr
      by_cases hcond : t ≤ (e - 1) / idx.tile_size ∧ s / idx.tile_size ≤ t
      · rw [if_pos hcond] at hr
        have hnil : (Contig.mk nm []).contig_tiles.getD t [] = [] := by
          cases t <;> rfl
        rw [hnil, List.nil_append, List.mem_singleton] at hr
        rw [hr]
        exact Or.inr ⟨rfl, hcond.2, hcond.1⟩
      · rw [if_neg hcond] at hr
        have hnil : (Contig.mk nm []).contig_tiles.getD t [] = [] := by
          cases t <;> rfl
        rw [hnil] at hr
        simp at hr

theorem fold_tile_pred (P : Nat → ContigRange → Prop) :
    ∀ (records : List RecordIn) (idx0 : ContigIndex),
    (∀ c ∈ idx0.contigs, ∀ t : Nat, ∀ r ∈ c.contig_tiles.getD t [], P t r) →
    (∀ rec ∈ records, ∀ t : Nat, rec.start_bp / idx0.tile_size ≤ t →
      t ≤ (rec.end_bp - 1) / idx0.tile_size →
      P t ⟨rec.bed_idx, rec.start_bp, rec.end_bp, rec.bgzf_pos⟩) →
    ∀ c ∈ (records.foldl (fun idx r =>
        add_contig_range idx r.contig r.bed_idx r.start_bp r.end_bp r.bgzf_pos)
        idx0).contigs,
      ∀ t : Nat, ∀ r ∈ c.contig_tiles.getD t [], P t r := by
  intro records
  induction records with
  | nil => intro idx0 h0 _ c hc t r hr; exact h0 c hc t r hr
  | cons rec rest ih =>
    intro idx0 h0 hrec c hc t r hr
    rw [List.foldl_cons] at hc
    refine ih (add_contig_range idx0 rec.contig rec.bed_idx rec.start_bp rec.end_bp
      rec.bgzf_pos) ?_ ?_ c hc t r hr
    · intro c2 hc2 t2 r2 hr2
      rcases mem_tile_add idx0 rec.contig rec.bed_idx rec.start_bp rec.end_bp rec.bgzf_pos
        c2 t2 r2 hc2 hr2 with ⟨c1, hc1, hr1⟩ | ⟨heq, h1, h2⟩
      · exact h0 c1 hc1 t2 r2 hr1
      · rw [heq]
        exact hrec rec (by simp) t2 h1 h2
    · intro rec2 hrec2 t2 ht1 ht2
      rw [add_contig_range_tile_size] at ht1 ht2
      exact hrec rec2 (by simp [hrec2]) t2 ht1 ht2

theorem build_tile_pred (P : Nat → ContigRange → Prop) (records : List RecordIn)
    (files : List BGZFile)
    (hrec : ∀ rec ∈ records, ∀ t : Nat, rec.start_bp / 16384 ≤ t →
      t ≤ (rec.end_bp - 1) / 16384 →
      P t ⟨rec.bed_idx, rec.start_bp, rec.end_bp, rec.bgzf_pos⟩) :
    ∀ c ∈ (buildFrom records files).contigs, ∀ t : Nat,
      ∀ r ∈ c.contig_tiles.getD t [], P t r := by
  intro c hc t r hr
  exact fold_tile_pred P records emptyIndex
    (by intro c2 hc2; simp [emptyIndex] at hc2) hrec c hc t r hr

/-! ## What a successful query emits -/

theorem emitLines_spec (env : Nat → Nat → List Nat) (nfiles : Nat)
    (fam : Option (List Nat)) (nrph : Bool) :
    ∀ (rs : List ContigRange) (out : List (List Nat)),
    emitLines env nfiles fam nrph rs = .ok out →
    ∃ sub : List ContigRange, sub.Sublist rs ∧
      out = sub.map (fun r => env r.bed_idx r.bgzf_pos) := by
  intro rs
  induction rs with
  | nil =>
    intro out h
    cases h
    exact ⟨[], List.Sublist.refl _, rfl⟩
  | cons r rest ih =>
    intro out h
    rw [emitLines] at h
    by_cases hb : r.bed_idx < nfiles
    · rw [if_pos hb] at h
      cases hf : filter_line (env r.bed_idx r.bgzf_pos) fam nrph with
      | none => rw [hf] at h; cases h
      | some keep =>
        rw [hf] at h
        cases he2 : emitLines env nfiles fam nrph rest with
        | error e => rw [he2] at h; cases h
        | ok out2 =>
          rw [he2] at h
          obtain ⟨sub, hsub, hout⟩ := ih out2 he2
          cases h
          cases keep with
          | true =>
            exact ⟨r :: sub, hsub.cons_cons r, by simp [hout]⟩
          | false =>
            exact ⟨sub, hsub.cons r, by simp [hout]⟩
    · rw [if_neg hb] at h
      cases h

theorem midTileRanges_sublist (base qe : Nat) :
    ∀ v : List ContigRange, (midTileRanges base qe v).Sublist v := by
  intro v
  induction v with
  | nil => exact List.Sublist.refl _
  | cons r rest ih =>
    rw [midTileRanges]
    by_cases h1 : r.start_bp < base
    · rw [if_pos h1]
      exact ih.cons r
    · rw [if_neg h1]
      by_cases h2 : r.start_bp < qe
      · rw [if_pos h2]
        exact ih.cons_cons r
      · rw [if_neg h2]
        exact List.nil_sublist _

theorem midTileRanges_bounds (base qe : Nat) :
    ∀ (v : List ContigRange) (r : ContigRange), r ∈ midTileRanges base qe v →
      base ≤ r.start_bp ∧ r.start_bp < qe := by
  intro v
  induction v with
  | nil => intro r h; simp [midTileRanges] at h
  | cons x rest ih =>
    intro r h
    rw [midTileRanges] at h
    by_cases h1 : x.start_bp < base
    · rw [if_pos h1] at h
      exact ih r h
    · rw [if_neg h1] at h
      by_cases h2 : x.start_bp < qe
      · rw [if_pos h2] at h
        rcases List.mem_cons.mp h with rfl | h3
        · omega
        · exact ih r h3
      · rw [if_neg h2] at h
        simp at h

theorem mem_takeWhile_lt (qe : Nat) :
    ∀ (v : List ContigRange) (r : ContigRange),
      r ∈ v.takeWhile (fun x => x.start_bp < qe) → r.start_bp < qe := by
  intro v
  induction v with
  | nil => intro r h; simp at h
  | cons x rest ih =>
    intro r h
    by_cases hx : x.start_bp < qe
    · rw [List.takeWhile_cons_of_pos (by simpa using hx)] at h
      rcases List.mem_cons.mp h with rfl | h2
      · exact hx
      · exact ih r h2
    · rw [List.takeWhile_cons_of_neg (by simpa using hx)] at h
      simp at h

theorem searchMidTiles_spec (bytes : List Nat) (li : LoadedIndex)
    (env : Nat → Nat → List Nat) (fam : Option (List Nat)) (nrph : Bool)
    (cIdx qe : Nat) (T : List (List ContigRange)) (RCS : List Nat)
    (hrcs : li.range_counts.get? cIdx = some RCS)
    (hlen : RCS.length = T.length)
    (hread : ∀ t, t < T.length → read_tile bytes li cIdx t = T.getD t [])
    (hsorted : ∀ t : Nat, (T.getD t []).Pairwise (fun a b => a.start_bp ≤ b.start_bp))
    (halign : ∀ t : Nat, ∀ r ∈ T.getD t [], r.start_bp < li.tile_size * (t + 1)) :
    ∀ (n t0 : Nat) (out : List (List Nat)),
    searchMidTiles bytes li env fam nrph cIdx qe (List.range' t0 n) (li.tile_size * t0)
      = .ok out →
    ∃ rs : List ContigRange,
      out = rs.map (fun r => env r.bed_idx r.bgzf_pos) ∧
      rs.Pairwise (fun a b => a.start_bp ≤ b.start_bp) ∧
      rs.Sublist ((T.drop t0).flatten) ∧
      (∀ r ∈ rs, li.tile_size * t0 ≤ r.start_bp ∧ r.start_bp < qe) := by
  intro n
  induction n with
  | zero =>
    intro t0 out h
    rw [show List.range' t0 0 = [] from rfl, searchMidTiles] at h
    cases h
    exact ⟨[], rfl, List.Pairwise.nil, List.nil_sublist _, by simp⟩
  | succ n ih =>
    intro t0 out h
    rw [List.range'_succ] at h
    simp only [searchMidTiles, hrcs] at h
    cases hrc : RCS.get? t0 with
    | none =>
      simp only [hrc] at h
      cases h
    | some rc =>
      simp only [hrc] at h
      have ht0 : t0 < T.length := by
        by_contra h2
        rw [List.get?_eq_none.mpr (by omega)] at hrc
        cases hrc
      have hdropT : T.drop t0 = T.getD t0 [] :: T.drop (t0 + 1) := by
        rw [List.drop_eq_getElem_cons ht0, List.getD_eq_getElem _ _ ht0]
      have step : ∀ out2 : List (List Nat),
          searchMidTiles bytes li env fam nrph cIdx qe (List.range' (t0 + 1) n)
            (li.tile_size * t0 + li.tile_size) = .ok out2 →
          ∃ rs : List ContigRange,
            out2 = rs.map (fun r => env r.bed_idx r.bgzf_pos) ∧
            rs.Pairwise (fun a b => a.start_bp ≤ b.start_bp) ∧
            rs.Sublist ((T.drop t0).flatten) ∧
            (∀ r ∈ rs, li.tile_size * t0 ≤ r.start_bp ∧ r.start_bp < qe) := by
        intro out2 h2
        rw [show li.tile_size * t0 + li.tile_size = li.tile_size * (t0 + 1) from by ring] at h2
        obtain ⟨rs, ho, hp, hs, hb⟩ := ih (t0 + 1) out2 h2
        refine ⟨rs, ho, hp, ?_, ?_⟩
        · refine hs.trans ?_
          rw [hdropT, List.flatten_cons]
          exact List.sublist_append_right _ _
        · intro r hr
          have h3 := hb r hr
          have h4 : li.tile_size * t0 ≤ li.tile_size * (t0 + 1) :=
            Nat.mul_le_mul_left _ (by omega)
          exact ⟨le_trans h4 h3.1, h3.2⟩
      by_cases hrc0 : rc > 0
      · simp only [if_pos hrc0] at h
        rw [hread t0 ht0] at h
        cases hh : (T.getD t0 []).head? with
        | none =>
          simp only [hh] at h
          cases h
        | some r0 =>
          simp only [hh] at h
          by_cases hr0 : r0.start_bp < qe
          · simp only [if_pos hr0] at h
            cases hemit : emitLines env li.file_count fam nrph
                (midTileRanges (li.tile_size * t0) qe (T.getD t0 [])) with
            | error e =>
              simp only [hemit] at h
              cases h
            | ok lines =>
              simp only [hemit] at h
              cases hrest : searchMidTiles bytes li env fam nrph cIdx qe
                  (List.range' (t0 + 1) n) (li.tile_size * t0 + li.tile_size) with
              | error e =>
                simp only [hrest] at h
                cases h
              | ok rest2 =>
                simp only [hrest] at h
                cases h
                obtain ⟨sub, hsub, hlines⟩ :=
                  emitLines_spec env li.file_count fam nrph _ lines hemit
                obtain ⟨rs2, hout2, hpw2, hsl2, hbd2⟩ := ih (t0 + 1) rest2 (by
                  rw [show li.tile_size * (t0 + 1) =
                    li.tile_size * t0 + li.tile_size from by ring]
                  exact hrest)
                have hsubtile : sub.Sublist (T.getD t0 []) :=
                  hsub.trans (midTileRanges_sublist _ _ _)
                refine ⟨sub ++ rs2, ?_, ?_, ?_, ?_⟩
                · rw [List.map_append, ← hlines, ← hout2]
                · rw [List.pairwise_append]
                  refine ⟨(hsorted t0).sublist hsubtile, hpw2, ?_⟩
                  intro a ha b hb2
                  have ha2 : a ∈ T.getD t0 [] := hsubtile.subset ha
                  have h5 := halign t0 a ha2
                  have h6 := hbd2 b hb2
                  exact le_trans (le_of_lt h5) h6.1
                · rw [hdropT, List.flatten_cons]
                  exact List.Sublist.append hsubtile hsl2
                · intro r hr
                  rcases List.mem_append.mp hr with h1 | h1
                  · exact midTileRanges_bounds _ _ _ r (hsub.subset h1)
                  · have h3 := hbd2 r h1
                    have h4 : li.tile_size * t0 ≤ li.tile_size * (t0 + 1) :=
                      Nat.mul_le_mul_left _ (by omega)
                    exact ⟨le_trans h4 h3.1, h3.2⟩
          · simp only [if_neg hr0] at h
            exact step out h
      · simp only [if_neg hrc0] at h
        exact step out h

theorem lookupName_map_range_lt (g : Nat → List Nat) (k : List Nat) :
    ∀ n c : Nat, lookupName ((List.range n).map (fun i => (g i, i))) k = some c → c < n := by
  intro n
  induction n with
  | zero => intro c h; cases h
  | succ n ih =>
    intro c h
    rw [List.range_succ, List.map_append, List.map_singleton, lookupName_snoc] at h
    by_cases hk : g n == k
    · rw [if_pos hk] at h
      cases h
      omega
    · rw [if_neg hk] at h
      have := ih c h
      omega

theorem getD_nil_of_ge {α : Type u} (l : List α) (t : Nat) (d : α) (h : l.length ≤ t) :
    l.getD t d = d := by
  rw [List.getD_eq_getElem?_getD, List.getElem?_eq_none h]
  rfl

theorem persistedTiles_getD (idx : ContigIndex) (c t : Nat)
    (ht : t < ((idx.contigs.getD c default).contig_tiles).length) :
    (persistedTiles idx c).getD t [] = sortByStart (tileOf idx c t) := by
  rw [persistedTiles, tileOf, List.getD_eq_getElem _ _ (by simpa using ht),
    List.getElem_map, List.getD_eq_getElem _ _ ht]

theorem length_persistedTiles (idx : ContigIndex) (c : Nat) :
    (persistedTiles idx c).length = ((idx.contigs.getD c default).contig_tiles).length := by
  simp [persistedTiles]

theorem persisted_stability (idx : ContigIndex) (c t k : Nat) :
    ((persistedTiles idx c).getD t []).filter (fun x => x.start_bp == k) =
      (tileOf idx c t).filter (fun x => x.start_bp == k) := by
  by_cases ht : t < ((idx.contigs.getD c default).contig_tiles).length
  · rw [persistedTiles_getD idx c t ht, stable_sortByStart]
  · rw [getD_nil_of_ge _ _ _ (by rw [length_persistedTiles]; omega)]
    rw [tileOf, getD_nil_of_ge _ _ _ (by omega)]

set_option maxHeartbeats 2000000 in
/-- **C6.** For every successful range query over an index built, persisted and
loaded by the builder, the returned record-line list is the image of a list of ranges
`rs` that is sorted by `start_bp` ascending and is a sublist of the persisted ranges
of the queried contig in persistence order — so records sharing a `start_bp` appear
in the order they were persisted; and per-tile persistence order restricted to any
fixed `start_bp` equals build-time insertion order, because the per-tile sort is
stable. -/
theorem search_results_ordered (records : List RecordIn) (files : List BGZFile)
    (env : Nat → Nat → List Nat) (qc : List Nat) (qs qe : Nat)
    (fam : Option (List Nat)) (nrph : Bool)
    (hfit : (save_index_bytes (buildFrom records files)).length < U32M)
    (hb : ∀ rec ∈ records, rec.bed_idx < U32M ∧ rec.start_bp < U64M ∧
      rec.end_bp < U64M ∧ rec.bgzf_pos < U64M)
    (res : List (List Nat))
    (hok : searchBuilt records files env qc qs qe fam nrph = .ok res) :
    ∃ (cIdx : Nat) (rs : List ContigRange),
      lookupName (init_search (save_index_bytes
        (buildFrom records files))).contig_lookup qc = some cIdx ∧
      res = rs.map (fun r => env r.bed_idx r.bgzf_pos) ∧
      rs.Pairwise (fun a b => a.start_bp ≤ b.start_bp) ∧
      rs.Sublist (persistedFlat (buildFrom records files) cIdx) ∧
      (∀ c t k : Nat,
        ((persistedTiles (buildFrom records files) c).getD t []).filter
            (fun x => x.start_bp == k)
          = (tileOf (buildFrom records files) c t).filter
            (fun x => x.start_bp == k)) := by
  set idx := buildFrom records files with hidx
  set B := save_index_bytes idx with hB
  set li := init_search B with hli
  clear_value li B idx
  rw [hB] at hfit
  obtain ⟨hC, hF, htcb, hrcb⟩ := bounds_from_hlen idx hfit
  have hts : idx.tile_size = 16384 := by rw [hidx]; exact buildFrom_tile_size records files
  have hls : li.tile_size = 16384 := by
    rw [hli, hB, load_tile_size idx (by rw [hts]; decide), hts]
  have hlrc : li.range_counts = rangeCountsOf idx := by
    rw [hli, hB]
    exact load_range_counts idx hC htcb hrcb
  have hlookup : li.contig_lookup = (List.range idx.contigs.length).map
      (fun n => (takeToNull (name40 ((idx.contigs.getD n default).name)), n)) := by
    rw [hli, hB]
    exact load_contig_lookup idx hC htcb
  have hbnd : rangesBounded idx := by
    rw [hidx]
    intro c hc t r hr
    exact build_tile_pred
      (fun _ r => r.bed_idx < U32M ∧ r.start_bp < U64M ∧ r.end_bp < U64M ∧
        r.bgzf_pos < U64M)
      records files (fun rec hrec t2 _ _ => hb rec hrec) c hc t r hr
  have hok2 : search B li env qc qs qe fam nrph = .ok res := by
    rw [hli, hB, hidx]
    exact hok
  cases hlk : lookupName li.contig_lookup qc with
  | none =>
    simp only [search, hlk] at hok2
    cases hok2
  | some cIdx =>
  simp only [search, hlk] at hok2
  rw [hls, if_neg (by decide : ¬ (16384 : Nat) = 0)] at hok2
  have hcidlt : cIdx < idx.contigs.length := by
    rw [hlookup] at hlk
    exact lookupName_map_range_lt _ qc idx.contigs.length cIdx hlk
  cases htcget : li.tile_counts.get? cIdx with
  | none =>
    simp only [htcget] at hok2
    cases hok2
  | some tc =>
  simp only [htcget] at hok2
  by_cases hoor : qs / 16384 > tc
  · rw [if_pos hoor] at hok2
    cases hok2
  rw [if_neg hoor] at hok2
  have hclen : cIdx < (rangeCountsOf idx).length := by
    rw [length_rangeCountsOf]
    exact hcidlt
  have hrcsget : li.range_counts.get? cIdx =
      some ((rangeCountsOf idx).getD cIdx []) := by
    rw [hlrc, List.get?_eq_getElem?, List.getElem?_eq_getElem hclen,
      List.getD_eq_getElem _ _ hclen]
  simp only [hrcsget] at hok2
  have hRCSlen : ((rangeCountsOf idx).getD cIdx []).length =
      (persistedTiles idx cIdx).length := by
    rw [rc_getD_eq idx cIdx hcidlt, length_persistedTiles,
      List.getD_eq_getElem _ _ hcidlt]
    simp
  have hread2 : ∀ t, t < (persistedTiles idx cIdx).length →
      read_tile B li cIdx t = (persistedTiles idx cIdx).getD t [] := by
    intro t ht
    have ht2 : t < ((idx.contigs.getD cIdx default).contig_tiles).length := by
      rw [length_persistedTiles] at ht
      exact ht
    have ht3 : t < (idx.contigs[cIdx]).contig_tiles.length := by
      rw [List.getD_eq_getElem _ _ hcidlt] at ht2
      exact ht2
    rw [hli, hB, read_tile_load idx hC hF htcb hrcb hbnd hfit cIdx t hcidlt ht3,
      persistedTiles_getD idx cIdx t ht2]
  have hsorted2 : ∀ t : Nat, ((persistedTiles idx cIdx).getD t []).Pairwise
      (fun a b => a.start_bp ≤ b.start_bp) := by
    intro t
    by_cases ht : t < (persistedTiles idx cIdx).length
    · rw [persistedTiles_getD idx cIdx t (by rw [length_persistedTiles] at ht; exact ht)]
      exact sorted_sortByStart _
    · rw [getD_nil_of_ge _ _ _ (by omega)]
      exact List.Pairwise.nil
  have haligned : ∀ t : Nat, ∀ r ∈ (persistedTiles idx cIdx).getD t [],
      r.start_bp < li.tile_size * (t + 1) := by
    intro t r hr
    rw [hls]
    by_cases ht : t < (persistedTiles idx cIdx).length
    · have ht2 : t < ((idx.contigs.getD cIdx default).contig_tiles).length := by
        rw [length_persistedTiles] at ht
        exact ht
      rw [persistedTiles_getD idx cIdx t ht2] at hr
      have hr2 : r ∈ tileOf idx cIdx t := (mem_sortByStart r _).mp hr
      rw [tileOf] at hr2
      have halig := build_tile_pred (fun t r => r.start_bp < 16384 * (t + 1))
        records files
        (fun rec hrec t2 h1 h2 => by
          show rec.start_bp < 16384 * (t2 + 1)
          omega)
      have hmem : idx.contigs.getD cIdx default ∈ (buildFrom records files).contigs := by
        rw [← hidx, List.getD_eq_getElem _ _ hcidlt]
        exact List.getElem_mem hcidlt
      exact halig _ hmem t r hr2
    · rw [getD_nil_of_ge _ _ _ (by omega)] at hr
      cases hr
  cases hrc0get : ((rangeCountsOf idx).getD cIdx []).get? (qs / 16384) with
  | none =>
    simp only [hrc0get] at hok2
    cases hok2
  | some rc0 =>
  simp only [hrc0get] at hok2
  have hslt : qs / 16384 < (persistedTiles idx cIdx).length := by
    by_contra h2
    rw [List.get?_eq_none.mpr (by rw [hRCSlen]; omega)] at hrc0get
    cases hrc0get
  by_cases hrc0 : rc0 > 0
  · rw [if_pos hrc0] at hok2
    rw [hread2 (qs / 16384) hslt] at hok2
    cases hh : ((persistedTiles idx cIdx).getD (qs / 16384) []).head? with
    | none =>
      simp only [hh] at hok2
      cases hok2
    | some r0 =>
    simp only [hh] at hok2
    have hrc0len : rc0 = ((persistedTiles idx cIdx).getD (qs / 16384) []).length := by
      have hlt2 : qs / 16384 < ((rangeCountsOf idx).getD cIdx []).length := by
        rw [hRCSlen]
        exact hslt
      rw [List.get?_eq_getElem?, List.getElem?_eq_getElem hlt2] at hrc0get
      have h3 : rc0 = ((rangeCountsOf idx).getD cIdx [])[qs / 16384] := by
        cases hrc0get
        rfl
      have ht2 : qs / 16384 < ((idx.contigs.getD cIdx default).contig_tiles).length := by
        rw [length_persistedTiles] at hslt
        exact hslt
      rw [h3, persistedTiles_getD idx cIdx _ ht2, length_sortByStart, tileOf]
      have h4 : ((rangeCountsOf idx).getD cIdx []) =
          ((idx.contigs.getD cIdx default).contig_tiles).map List.length := by
        rw [rc_getD_eq idx cIdx hcidlt, List.getD_eq_getElem _ _ hcidlt]
      rw [List.getD_eq_getElem _ _ ht2]
      simp only [h4, List.getElem_map]
    rw [hrc0len, firstTileRanges_takeWhile _ qe (hsorted2 (qs / 16384))] at hok2
    have hfirstSpec : ∀ fl : List (List Nat),
        (if r0.start_bp < qe then
          emitLines env li.file_count fam nrph
            (((persistedTiles idx cIdx).getD (qs / 16384) []).takeWhile
              (fun r => r.start_bp < qe))
         else .ok []) = .ok fl →
        ∃ subF : List ContigRange,
          subF.Sublist ((persistedTiles idx cIdx).getD (qs / 16384) []) ∧
          fl = subF.map (fun r => env r.bed_idx r.bgzf_pos) := by
      intro fl h
      by_cases hfq : r0.start_bp < qe
      · rw [if_pos hfq] at h
        obtain ⟨subF, h1, h2⟩ := emitLines_spec env li.file_count fam nrph _ fl h
        exact ⟨subF, h1.trans (List.takeWhile_sublist _), h2⟩
      · rw [if_neg hfq] at h
        cases h
        exact ⟨[], List.nil_sublist _, rfl⟩
    have hmidSpec : ∀ ml : List (List Nat),
        (if min ((qe - 1) / 16384) (tc - 1) > qs / 16384 then
          searchMidTiles B li env fam nrph cIdx qe
            (List.range' (qs / 16384 + 1) (min ((qe - 1) / 16384) (tc - 1) - qs / 16384))
            (16384 * (qs / 16384 + 1))
         else .ok []) = .ok ml →
        ∃ rsM : List ContigRange,
          ml = rsM.map (fun r => env r.bed_idx r.bgzf_pos) ∧
          rsM.Pairwise (fun a b => a.start_bp ≤ b.start_bp) ∧
          rsM.Sublist (((persistedTiles idx cIdx).drop (qs / 16384 + 1)).flatten) ∧
          (∀ r ∈ rsM, li.tile_size * (qs / 16384 + 1) ≤ r.start_bp) := by
      intro ml h
      by_cases hmid : min ((qe - 1) / 16384) (tc - 1) > qs / 16384
      · rw [if_pos hmid] at h
        have h2 : searchMidTiles B li env fam nrph cIdx qe
            (List.range' (qs / 16384 + 1) (min ((qe - 1) / 16384) (tc - 1) - qs / 16384))
            (li.tile_size * (qs / 16384 + 1)) = .ok ml := by
          rw [hls]
          exact h
        obtain ⟨rsM, a1, a2, a3, a4⟩ := searchMidTiles_spec B li env fam nrph cIdx qe
          (persistedTiles idx cIdx) ((rangeCountsOf idx).getD cIdx [])
          hrcsget hRCSlen hread2 hsorted2 haligned
          (min ((qe - 1) / 16384) (tc - 1) - qs / 16384) (qs / 16384 + 1) ml h2
        exact ⟨rsM, a1, a2, a3, fun r hr => (a4 r hr).1⟩
      · rw [if_neg hmid] at h
        cases h
        exact ⟨[], rfl, List.Pairwise.nil, List.nil_sublist _, by simp⟩
    cases hfm : (if r0.start_bp < qe then
        emitLines env li.file_count fam nrph
          (((persistedTiles idx cIdx).getD (qs / 16384) []).takeWhile
            (fun r => r.start_bp < qe))
       else .ok []) with
    | error e =>
      rw [hfm] at hok2
      cases hok2
    | ok firstLines =>
    rw [hfm] at hok2
    cases hmm : (if min ((qe - 1) / 16384) (tc - 1) > qs / 16384 then
        searchMidTiles B li env fam nrph cIdx qe
          (List.range' (qs / 16384 + 1) (min ((qe - 1) / 16384) (tc - 1) - qs / 16384))
          (16384 * (qs / 16384 + 1))
       else .ok []) with
    | error e =>
      rw [hmm] at hok2
      cases hok2
    | ok midLines =>
    rw [hmm] at hok2
    cases hok2
    obtain ⟨subF, hsubF, hlF⟩ := hfirstSpec firstLines hfm
    obtain ⟨rsM, hlM, hpwM, hslM, hbdM⟩ := hmidSpec midLines hmm
    refine ⟨cIdx, subF ++ rsM, rfl, ?_, ?_, ?_,
      fun c t k => persisted_stability idx c t k⟩
    · rw [List.map_append, ← hlF, ← hlM]
    · rw [List.pairwise_append]
      refine ⟨(hsorted2 _).sublist hsubF, hpwM, ?_⟩
      intro a ha b hb2
      have h5 := haligned (qs / 16384) a (hsubF.subset ha)
      have h6 := hbdM b hb2
      exact le_trans (le_of_lt h5) h6
    · have hdropT : (persistedTiles idx cIdx).drop (qs / 16384) =
          (persistedTiles idx cIdx).getD (qs / 16384) [] ::
            (persistedTiles idx cIdx).drop (qs / 16384 + 1) := by
        rw [List.drop_eq_getElem_cons hslt, List.getD_eq_getElem _ _ hslt]
      have h7 : (subF ++ rsM).Sublist
          (((persistedTiles idx cIdx).drop (qs / 16384)).flatten) := by
        rw [hdropT, List.flatten_cons]
        exact List.Sublist.append hsubF hslM
      refine h7.trans ?_
      rw [persistedFlat]
      conv_rhs => rw [← List.take_append_drop (qs / 16384) (persistedTiles idx cIdx)]
      rw [List.flatten_append]
      exact List.sublist_append_right _ _
  · rw [if_neg hrc0] at hok2
    cases hok2
    exact ⟨cIdx, [], rfl, rfl, List.Pairwise.nil, List.nil_sublist _,
      fun c t k => persisted_stability idx c t k⟩

/-- Witness for C6 at the two-record `chr1` index queried over `[1, 25000)`:
the hypotheses hold and the conclusion follows by applying the theorem. -/
theorem search_results_ordered_witness :
    ∃ (cIdx : Nat) (rs : List ContigRange),
      lookupName (init_search (save_index_bytes
        (buildFrom [⟨chr1, 0, 100, 200, 3⟩, ⟨chr1, 0, 15000, 20000, 7⟩]
          oneFile))).contig_lookup chr1 = some cIdx ∧
      [[1003], [1007]] = rs.map (fun r => lineEnv r.bed_idx r.bgzf_pos) ∧
      rs.Pairwise (fun a b => a.start_bp ≤ b.start_bp) ∧
      rs.Sublist (persistedFlat
        (buildFrom [⟨chr1, 0, 100, 200, 3⟩, ⟨chr1, 0, 15000, 20000, 7⟩] oneFile)
        cIdx) ∧
      (∀ c t k : Nat,
        ((persistedTiles
            (buildFrom [⟨chr1, 0, 100, 200, 3⟩, ⟨chr1, 0, 15000, 20000, 7⟩] oneFile)
            c).getD t []).filter (fun x => x.start_bp == k)
          = (tileOf
              (buildFrom [⟨chr1, 0, 100, 200, 3⟩, ⟨chr1, 0, 15000, 20000, 7⟩] oneFile)
              c t).filter (fun x => x.start_bp == k)) :=
  search_results_ordered
    [⟨chr1, 0, 100, 200, 3⟩, ⟨chr1, 0, 15000, 20000, 7⟩] oneFile lineEnv
    chr1 1 25000 none false (by decide) (by decide) [[1003], [1007]] (by decide)
